import Mathlib

/-!
# XMM hierarchical HMM: a shallow embedding of `xmmHierarchicalHmm.cpp`

The development follows `src/models/hmm/xmmHierarchicalHmm.cpp` and the
`RingBuffer` class of `src/base/utility.h`.

Numeric model.  `double` and `float` values are exact rationals.  A quotient
`x / c` is the exact quotient when `c ≠ 0`; for `c = 0` IEEE-754 produces NaN or
an infinity, which has no rational value, and the embedding then carries the
value `x / 0 = 0` of the rationals.  Statements about quotients are therefore
made under a non-zero divisor, and a zero divisor is reported as such.

Containers.  `std::map<std::string, V>` is the list of its entries in iteration
order (strictly increasing keys).  `std::vector` is a list; a loop
`for (k = 0; k < N; k++) v[k] = f(k)` over a vector holding `N` entries is the
list of the `f(k)`; a read `v[k]` is `v.getD k 0`.
-/

namespace xmm

/-! ## `std::map<std::string, V>` -/

/-- Class labels are `std::string`s. -/
abbrev Label := String

/-- The entries of a `std::map<std::string, V>` in iteration order. -/
abbrev StdMap (V : Type) := List (Label × V)

namespace StdMap

variable {V : Type}

/-- The keys in iteration order. -/
def keys (m : StdMap V) : List Label := m.map Prod.fst

/-- Well-formed maps: keys strictly increasing (what `std::map` maintains). -/
def WF (m : StdMap V) : Prop := (keys m).Pairwise (fun a b => a < b)

instance (m : StdMap V) : Decidable (WF m) :=
  inferInstanceAs (Decidable ((keys m).Pairwise (fun a b => a < b)))

/-- Lookup `m.find(k)`. -/
def find : StdMap V → Label → Option V
  | [], _ => none
  | (k', v) :: t, k => if k' = k then some v else find t k

/-- The assignment `m[k] = v`: overwrite the entry of `k`, or insert it at its
place in key order. -/
def assign : StdMap V → Label → V → StdMap V
  | [], k, v => [(k, v)]
  | (k', v') :: t, k, v =>
    if k < k' then (k, v) :: (k', v') :: t
    else if k = k' then (k, v) :: t
    else (k', v') :: assign t k v

/-- The value of the expression `m[k]`: the stored value, or the
value-initialised `d` that `operator[]` inserts for a missing key. -/
def read (m : StdMap V) (k : Label) (d : V) : V := (find m k).getD d

/-- The side effect of evaluating `m[k]`: a missing key is inserted with the
value-initialised `d`. -/
def touch (m : StdMap V) (k : Label) (d : V) : StdMap V :=
  match find m k with
  | some _ => m
  | none => assign m k d

/-- Removal `m.erase(k)`. -/
def erase : StdMap V → Label → StdMap V
  | [], _ => []
  | (k', v) :: t, k => if k' = k then t else (k', v) :: erase t k

end StdMap

/-- Source: `transition[src][dst]` read from a `std::map<string, std::map<string, double>>`. -/
def read2 (t : StdMap (StdMap ℚ)) (src dst : Label) : ℚ :=
  StdMap.read (StdMap.read t src []) dst 0

/-- The assignment `transition[src][dst] = v`. -/
def assign2 (t : StdMap (StdMap ℚ)) (src dst : Label) (v : ℚ) : StdMap (StdMap ℚ) :=
  StdMap.assign t src (StdMap.assign (StdMap.read t src []) dst v)

/-- The side effect of reading `transition[src][dst]`. -/
def touch2 (t : StdMap (StdMap ℚ)) (src dst : Label) : StdMap (StdMap ℚ) :=
  StdMap.assign t src (StdMap.touch (StdMap.read t src []) dst 0)

/-! ## Data model -/

/-- An observation frame, `std::vector<float>`. -/
abbrev Observation := List ℚ

/-- Source: `HMM::TransitionMode`. -/
inductive TransitionMode where
  | Ergodic
  | LeftRight
  deriving DecidableEq, Repr

/-- Source: `MultiClassRegressionEstimator`. -/
inductive MultiClassRegressionEstimator where
  | Likeliest
  | Mixture
  deriving DecidableEq, Repr

/-- Exceptions thrown by the library. -/
inductive Exception where
  | runtime_error (what : String)
  | out_of_range (what : String)
  | invalid_argument (what : String)
  | JsonException (what : String)
  deriving DecidableEq, Repr

/-- The members of `SingleClassHMM::results` used by the hierarchy. -/
structure SingleClassResults where
  instant_likelihood : ℚ
  log_likelihood : ℚ
  exit_likelihood : ℚ
  exit_ratio : ℚ
  output_values : List ℚ
  output_variance : List ℚ
  deriving DecidableEq, Repr

/-- The members of a per-class `SingleClassHMM` that the hierarchy reads and
writes.  `obsProb k obs` is `states[k].obsProb(&observation[0])` and
`obsProb_input k obs` is `states[k].obsProb_input(&observation[0])`, the
emission densities computed by the state objects. -/
structure SingleClassHMM where
  /-- Source: `parameters.states.get()` -/
  states : ℕ
  /-- Source: `parameters.transition_mode.get()` -/
  transition_mode : TransitionMode
  prior : List ℚ
  transition : List ℚ
  exit_probabilities_ : List ℚ
  obsProb : ℕ → Observation → ℚ
  obsProb_input : ℕ → Observation → ℚ
  /-- Source: `alpha_h[0]`, the continue array -/
  alpha_h0 : List ℚ
  /-- Source: `alpha_h[1]`, the soft-exit array -/
  alpha_h1 : List ℚ
  /-- Source: `alpha_h[2]`, the hard-exit array -/
  alpha_h2 : List ℚ
  results : SingleClassResults

/-- Source: `alpha_h[e]` for `e = 0, 1, 2`. -/
def SingleClassHMM.alpha_h (m : SingleClassHMM) (e : ℕ) : List ℚ :=
  match e with
  | 0 => m.alpha_h0
  | 1 => m.alpha_h1
  | _ => m.alpha_h2

/-- The members of `shared_parameters` used by the hierarchy. -/
structure SharedParameters where
  bimodal : Bool
  dimension : ℕ
  dimension_input : ℕ
  deriving DecidableEq, Repr

/-- Source: `Configuration<HMM>`: the member used by the hierarchy. -/
structure Configuration where
  multiClass_regression_estimator : MultiClassRegressionEstimator
  deriving DecidableEq, Repr

/-- Source: `Results<HMM>` of the hierarchy. -/
structure Results where
  instant_likelihoods : List ℚ
  instant_normalized_likelihoods : List ℚ
  smoothed_likelihoods : List ℚ
  smoothed_normalized_likelihoods : List ℚ
  smoothed_log_likelihoods : List ℚ
  likeliest : Label
  output_values : List ℚ
  output_variance : List ℚ
  deriving DecidableEq, Repr

/-- The members of the base class `Model<SingleClassHMM, HMM>`. -/
structure Model where
  models : StdMap SingleClassHMM
  shared_parameters : SharedParameters
  configuration : Configuration

/-- The class `HierarchicalHMM`. -/
structure HierarchicalHMM extends Model where
  results : Results
  prior : StdMap ℚ
  exit_transition : StdMap ℚ
  transition : StdMap (StdMap ℚ)
  frontier_v1_ : List ℚ
  frontier_v2_ : List ℚ
  forward_initialized_ : Bool

/-- Source: `Model::size()`, the number of classes. -/
def HierarchicalHMM.size (h : HierarchicalHMM) : ℕ := h.models.length

/-- A default-constructed `Results<HMM>`. -/
def Results.empty : Results :=
  { instant_likelihoods := [], instant_normalized_likelihoods := [],
    smoothed_likelihoods := [], smoothed_normalized_likelihoods := [],
    smoothed_log_likelihoods := [], likeliest := "",
    output_values := [], output_variance := [] }

/-! ## JSON documents -/

/-- A record `{label, probability}` of the `prior` or `exit_transition` list. -/
structure LabelProbability where
  label : Label
  probability : ℚ
  deriving DecidableEq, Repr

/-- A record `{srcLabel, dstLabel, probability}` of the `transition` list. -/
structure TransitionRecord where
  srcLabel : Label
  dstLabel : Label
  probability : ℚ
  deriving DecidableEq, Repr

/-- The keys of the `Json::Value` document that the hierarchy writes and reads.
An array element is `none` when it is the `null` value that `resize` creates. -/
structure Json where
  prior : List (Option LabelProbability)
  transition : List (Option TransitionRecord)
  exit_transition : List (Option LabelProbability)
  deriving DecidableEq, Repr

/-- Source: `Json::Value::resize(n)` on an array: truncate, or pad with `null`. -/
def jsonResize {α : Type} (a : List (Option α)) (n : ℕ) : List (Option α) :=
  a.take n ++ List.replicate (n - a.length) none

/-- Source: `array[i] = v` on a `Json::Value` array: an index past the end first grows
the array with `null`s. -/
def jsonWrite {α : Type} (a : List (Option α)) (i : ℕ) (v : α) : List (Option α) :=
  if i < a.length then a.set i (some v)
  else a ++ List.replicate (i - a.length) none ++ [some v]

/-- Source: `p["label"].asString()` of an array element; a `null` gives the empty string. -/
def LabelProbability.labelOf : Option LabelProbability → Label
  | some r => r.label
  | none => ""

/-- Source: `p["probability"].asDouble()` of an array element; a `null` gives `0.0`. -/
def LabelProbability.probabilityOf : Option LabelProbability → ℚ
  | some r => r.probability
  | none => 0

/-- Source: `p["srcLabel"].asString()`. -/
def TransitionRecord.srcOf : Option TransitionRecord → Label
  | some r => r.srcLabel
  | none => ""

/-- Source: `p["dstLabel"].asString()`. -/
def TransitionRecord.dstOf : Option TransitionRecord → Label
  | some r => r.dstLabel
  | none => ""

/-- Source: `p["probability"].asDouble()`. -/
def TransitionRecord.probabilityOf : Option TransitionRecord → ℚ
  | some r => r.probability
  | none => 0

/-! ## Collaborators outside `xmmHierarchicalHmm.cpp` -/

/-- What `xmmHierarchicalHmm.cpp` calls and does not define: methods of the base
class `Model<SingleClassHMM, HMM>` and of `SingleClassHMM`, the constant
`DEFAULT_EXITTRANSITION()` and the C library `exp`.  They are parameters of the
embedding. -/
structure Collaborators where
  /-- Source: `Model::checkTraining()`: returns or throws; a `const` method. -/
  checkTraining : HierarchicalHMM → Except Exception Unit
  /-- Source: `DEFAULT_EXITTRANSITION()` -/
  DEFAULT_EXITTRANSITION : ℚ
  /-- Source: `exp` of `<cmath>` -/
  exp : ℚ → ℚ
  /-- Source: `SingleClassHMM::updateExitProbabilities()` -/
  updateExitProbabilities : SingleClassHMM → SingleClassHMM
  /-- Source: `SingleClassHMM::addExitPoint(state, proba)` -/
  addExitPoint : SingleClassHMM → ℤ → ℚ → SingleClassHMM
  /-- Source: `SingleClassHMM::reset()` -/
  reset : SingleClassHMM → SingleClassHMM
  /-- Source: `SingleClassHMM::updateAlphaWindow()` -/
  updateAlphaWindow : SingleClassHMM → SingleClassHMM
  /-- Source: `SingleClassHMM::updateResults()` -/
  updateResults : SingleClassHMM → SingleClassHMM
  /-- Source: `SingleClassHMM::regression(observation, results.output_values)` -/
  regression : SingleClassHMM → Observation → SingleClassHMM
  /-- the `SingleClassHMM` that `Model::addModelForClass` constructs -/
  newModel : SingleClassHMM
  /-- the `SingleClassHMM` that `models[label]` inserts for a missing label -/
  defaultModel : SingleClassHMM
  /-- Source: `Model::reset()` -/
  Model_reset : Model → Except Exception Model
  /-- Source: `Model::clear()` -/
  Model_clear : Model → Model
  /-- Source: `Model::toJson()` -/
  Model_toJson : Model → Json
  /-- the constructor `Model(Json::Value const &)` -/
  Model_ctor_Json : Json → Except Exception Model

/-- Modelled from the spec: `Model::addModelForClass`, the base-class method that
`HierarchicalHMM::addModelForClass` calls first and whose body is not in the
sources.  The spec: "inserts a newly-constructed Per-Class Model under `label`;
fails if `label` already exists". -/
def Model.addModelForClass (ext : Collaborators) (m : Model) (label : Label) :
    Except Exception Model :=
  if (StdMap.find m.models label).isSome then
    .error (.runtime_error "class already exists")
  else
    .ok { m with models := StdMap.assign m.models label ext.newModel }

/-- Modelled from the spec: `Model::removeClass`, the base-class method that
`HierarchicalHMM::removeClass` calls first and whose body is not in the sources.
The spec: "deletes the class; fails with NotFound if absent". -/
def Model.removeClass (m : Model) (label : Label) : Except Exception Model :=
  if (StdMap.find m.models label).isSome then
    .ok { m with models := StdMap.erase m.models label }
  else
    .error (.out_of_range "class not found")

/-! ## Hierarchy registry -/

/-- Source: `HierarchicalHMM::addExitPoint`. -/
def addExitPoint (ext : Collaborators) (h : HierarchicalHMM) (state : ℤ) (proba : ℚ) :
    HierarchicalHMM :=
  { h with models := h.models.map (fun p => (p.1, ext.addExitPoint p.2 state proba)) }

/-- The state of the first loop of `normalizeTransitions` after the iteration
for `src`: `sumPrior`, `prior` and `transition`. -/
def normalizeTransitions_step (ls : List Label) (st : ℚ × StdMap ℚ × StdMap (StdMap ℚ))
    (src : Label) : ℚ × StdMap ℚ × StdMap (StdMap ℚ) :=
  let sumPrior := st.1 + StdMap.read st.2.1 src 0
  let prior := StdMap.touch st.2.1 src 0
  let sumTrans := ls.foldl (fun acc dst => acc + read2 st.2.2 src dst) 0
  let touched := ls.foldl (fun t dst => touch2 t src dst) st.2.2
  let transition :=
    if sumTrans > 0 then
      ls.foldl (fun t dst => assign2 t src dst (read2 t src dst / sumTrans)) touched
    else touched
  (sumPrior, prior, transition)

/-- Source: `HierarchicalHMM::normalizeTransitions`. -/
def normalizeTransitions (h : HierarchicalHMM) : HierarchicalHMM :=
  let ls := StdMap.keys h.models
  let st := ls.foldl (normalizeTransitions_step ls) (0, h.prior, h.transition)
  let prior := ls.foldl (fun p src => StdMap.assign p src (StdMap.read p src 0 / st.1)) st.2.1
  { h with prior := prior, transition := st.2.2 }

/-- Source: `HierarchicalHMM::updatePrior`. -/
def updatePrior (h : HierarchicalHMM) : HierarchicalHMM :=
  let prior := h.models.foldl
    (fun pr model => StdMap.assign pr model.1 (1 / (h.size : ℚ))) []
  { h with prior := prior }

/-- Source: `HierarchicalHMM::updateTransition`. -/
def updateTransition (ext : Collaborators) (h : HierarchicalHMM) : HierarchicalHMM :=
  let st := h.models.foldl
    (fun (st : StdMap ℚ × StdMap (StdMap ℚ)) srcModel =>
      (StdMap.assign st.1 srcModel.1 ext.DEFAULT_EXITTRANSITION,
       h.models.foldl
         (fun t dstModel => assign2 t srcModel.1 dstModel.1 (1 / (h.size : ℚ))) st.2))
    ([], [])
  { h with exit_transition := st.1, transition := st.2 }

/-- Source: `HierarchicalHMM::updateExitProbabilities`. -/
def updateExitProbabilities (ext : Collaborators) (h : HierarchicalHMM) : HierarchicalHMM :=
  { h with models := h.models.map (fun model => (model.1, ext.updateExitProbabilities model.2)) }

/-- Source: `HierarchicalHMM::updateTransitionParameters`. -/
def updateTransitionParameters (ext : Collaborators) (h : HierarchicalHMM) : HierarchicalHMM :=
  if h.size = h.prior.length then h
  else updateExitProbabilities ext (updateTransition ext (updatePrior h))

/-- Source: `HierarchicalHMM::addModelForClass`. -/
def addModelForClass (ext : Collaborators) (h : HierarchicalHMM) (label : Label) :
    Except Exception HierarchicalHMM :=
  match Model.addModelForClass ext h.toModel label with
  | .error e => .error e
  | .ok base => .ok (updateTransitionParameters ext { h with toModel := base })

/-- Source: `HierarchicalHMM::removeClass`. -/
def removeClass (ext : Collaborators) (h : HierarchicalHMM) (label : Label) :
    Except Exception HierarchicalHMM :=
  match Model.removeClass h.toModel label with
  | .error e => .error e
  | .ok base => .ok (updateTransitionParameters ext { h with toModel := base })

/-! ## Frontier forward engine -/

/-- The emission probability of state `k`: `obsProb_input` in bimodal mode,
`obsProb` otherwise. -/
def emission (bimodal : Bool) (m : SingleClassHMM) (k : ℕ) (observation : Observation) : ℚ :=
  if bimodal then m.obsProb_input k observation else m.obsProb k observation

/-- The loop `alpha_h[e][k] /= norm_const` for `k < N` on one vector. -/
def divFirst (N : ℕ) (norm_const : ℚ) (v : List ℚ) : List ℚ :=
  (v.take N).map (fun x => x / norm_const) ++ v.drop N

/-- The loop "Normalize Alpha variables", for one class. -/
def normalizeAlpha (norm_const : ℚ) (m : SingleClassHMM) : SingleClassHMM :=
  { m with alpha_h0 := divFirst m.states norm_const m.alpha_h0,
           alpha_h1 := divFirst m.states norm_const m.alpha_h1,
           alpha_h2 := divFirst m.states norm_const m.alpha_h2 }

/-- The body of the first loop of `forward_init` for one class. -/
def forward_init_class (bimodal : Bool) (prior : StdMap ℚ) (observation : Observation)
    (label : Label) (m : SingleClassHMM) : SingleClassHMM :=
  let N := m.states
  match m.transition_mode with
  | .Ergodic =>
    let a0 := (List.range N).map
      (fun i => m.prior.getD i 0 * emission bimodal m i observation)
    { m with alpha_h0 := a0, alpha_h1 := List.replicate N 0, alpha_h2 := List.replicate N 0,
             results := { m.results with
               instant_likelihood := (List.range N).foldl
                 (fun acc i => acc + a0.getD i 0) m.results.instant_likelihood } }
  | .LeftRight =>
    let a0 := (List.replicate N (0 : ℚ)).set 0
      (StdMap.read prior label 0 * emission bimodal m 0 observation)
    { m with alpha_h0 := a0, alpha_h1 := List.replicate N 0, alpha_h2 := List.replicate N 0,
             results := { m.results with instant_likelihood := a0.getD 0 0 } }

/-- The classes after the first loop of `forward_init`. -/
def forward_init_models (h : HierarchicalHMM) (observation : Observation) :
    StdMap SingleClassHMM :=
  h.models.map (fun model =>
    (model.1, forward_init_class h.shared_parameters.bimodal h.prior observation model.1 model.2))

/-- The value of `norm_const` after the first loop of `forward_init`. -/
def forward_init_norm_const (h : HierarchicalHMM) (observation : Observation) : ℚ :=
  (forward_init_models h observation).foldl
    (fun norm_const model => norm_const + model.2.results.instant_likelihood) 0

/-- Source: `HierarchicalHMM::forward_init`. -/
def forward_init (ext : Collaborators) (h : HierarchicalHMM) (observation : Observation) :
    Except Exception HierarchicalHMM :=
  match ext.checkTraining h with
  | .error e => .error e
  | .ok _ =>
    .ok { h with
      models := (forward_init_models h observation).map
        (fun model => (model.1, normalizeAlpha (forward_init_norm_const h observation) model.2)),
      prior := h.models.foldl
        (fun pr model =>
          if model.2.transition_mode = .Ergodic then pr else StdMap.touch pr model.1 0) h.prior,
      forward_initialized_ := true }

/-- The sum that `likelihoodAlpha` stores for one class. -/
def likelihoodAlpha_class (exitNum : ℤ) (m : SingleClassHMM) : ℚ :=
  if exitNum < 0 then
    (List.range 3).foldl
      (fun acc exit => (List.range m.states).foldl
        (fun acc k => acc + (m.alpha_h exit).getD k 0) acc) 0
  else
    (List.range m.states).foldl (fun acc k => acc + (m.alpha_h exitNum.toNat).getD k 0) 0

/-- Source: `HierarchicalHMM::likelihoodAlpha`: entry `l` of `likelihoodVector` is
overwritten for the `l`-th class. -/
def likelihoodAlpha (h : HierarchicalHMM) (exitNum : ℤ) (likelihoodVector : List ℚ) : List ℚ :=
  h.models.map (fun model => likelihoodAlpha_class exitNum model.2)
    ++ likelihoodVector.drop h.models.length

/-- The term that the loop `for (auto &srcModel : models)` of `forward_update`
adds for the `i`-th class `src`:
`frontier_v1_[i] * transition[src][dst] + prior[dst] * frontier_v2_[i]`. -/
def frontierTerm (h : HierarchicalHMM) (dst : Label) (ip : ℕ × Label × SingleClassHMM) : ℚ :=
  h.frontier_v1_.getD ip.1 0 * read2 h.transition ip.2.1 dst
    + StdMap.read h.prior dst 0 * h.frontier_v2_.getD ip.1 0

/-- The frontier variable `front[k]` of an ergodic class `dst`.  `h` holds the
frontier vectors of this frame. -/
def front_ergodic (h : HierarchicalHMM) (dst : Label) (m : SingleClassHMM) (k : ℕ) : ℚ :=
  let N := m.states
  h.models.enum.foldl
    (fun acc ip => acc + m.prior.getD k 0 * frontierTerm h dst ip)
    ((List.range N).foldl
      (fun acc j => acc + m.transition.getD (j * N + k) 0
        / (1 - m.exit_probabilities_.getD j 0) * m.alpha_h0.getD j 0) 0)

/-- The frontier variable `front[k]` of a left-right class `dst`. -/
def front_leftright (h : HierarchicalHMM) (dst : Label) (m : SingleClassHMM) (k : ℕ) : ℚ :=
  if k = 0 then
    h.models.enum.foldl (fun acc ip => acc + frontierTerm h dst ip)
      (m.transition.getD 0 0 * m.alpha_h0.getD 0 0)
  else
    0 + m.transition.getD (k * 2) 0 / (1 - m.exit_probabilities_.getD k 0)
          * m.alpha_h0.getD k 0
      + m.transition.getD ((k - 1) * 2 + 1) 0 / (1 - m.exit_probabilities_.getD (k - 1) 0)
          * m.alpha_h0.getD (k - 1) 0

/-- The vector `front` of step 1 of `forward_update` for the class `dst`. -/
def front (h : HierarchicalHMM) (dst : Label) (m : SingleClassHMM) : List ℚ :=
  (List.range m.states).map (fun k =>
    match m.transition_mode with
    | .Ergodic => front_ergodic h dst m k
    | .LeftRight => front_leftright h dst m k)

/-- The value `tmp` of step 2 of `forward_update` for state `k` of `dst`. -/
def forward_update_tmp (h : HierarchicalHMM) (observation : Observation) (dst : Label)
    (m : SingleClassHMM) (k : ℕ) : ℚ :=
  emission h.shared_parameters.bimodal m k observation * (front h dst m).getD k 0

/-- The body of the main loop of `forward_update` for the class `dst`, before
the final normalization. -/
def forward_update_class (h : HierarchicalHMM) (observation : Observation) (dst : Label)
    (m : SingleClassHMM) : SingleClassHMM :=
  let N := m.states
  let tmp := forward_update_tmp h observation dst m
  let a2 := (List.range N).map (fun k =>
    StdMap.read h.exit_transition dst 0 * m.exit_probabilities_.getD k 0 * tmp k)
  let a1 := (List.range N).map (fun k =>
    (1 - StdMap.read h.exit_transition dst 0) * m.exit_probabilities_.getD k 0 * tmp k)
  let a0 := (List.range N).map (fun k => (1 - m.exit_probabilities_.getD k 0) * tmp k)
  let exit_likelihood := (List.range N).foldl
    (fun acc k => acc + (a1.getD k 0 + a2.getD k 0)) 0
  let instant_likelihood := (List.range N).foldl
    (fun acc k => acc + (a0.getD k 0 + a1.getD k 0 + a2.getD k 0)) 0
  { m with alpha_h0 := a0, alpha_h1 := a1, alpha_h2 := a2,
           results := { m.results with
             exit_likelihood := exit_likelihood,
             instant_likelihood := instant_likelihood,
             exit_ratio := exit_likelihood / instant_likelihood } }

/-- The hierarchy with the frontier vectors of this frame, as computed by the two
calls of `likelihoodAlpha` that open `forward_update`. -/
def withFrontier (h : HierarchicalHMM) : HierarchicalHMM :=
  { h with frontier_v1_ := likelihoodAlpha h 1 h.frontier_v1_,
           frontier_v2_ := likelihoodAlpha h 2 h.frontier_v2_ }

/-- The value of `norm_const` after the main loop of `forward_update`. -/
def forward_update_norm_const (h : HierarchicalHMM) (observation : Observation) : ℚ :=
  h.models.foldl
    (fun norm_const dstModel => (List.range dstModel.2.states).foldl
      (fun norm_const k =>
        norm_const + forward_update_tmp (withFrontier h) observation dstModel.1 dstModel.2 k)
      norm_const) 0

/-- The entries that the reads `this->prior[dst]`, `this->transition[src][dst]`
and `this->exit_transition[dst]` of `forward_update` insert for missing keys
during the iteration for the class `dstModel`; `srcModels` are all classes. -/
def forward_update_touch_step (srcModels : StdMap SingleClassHMM) (acc : HierarchicalHMM)
    (dstModel : Label × SingleClassHMM) : HierarchicalHMM :=
  let reached := decide (dstModel.2.transition_mode = .LeftRight ∨ 0 < dstModel.2.states)
  { acc with
    prior := if reached then StdMap.touch acc.prior dstModel.1 0 else acc.prior,
    transition :=
      if reached then
        srcModels.foldl (fun t srcModel => touch2 t srcModel.1 dstModel.1) acc.transition
      else acc.transition,
    exit_transition :=
      if 0 < dstModel.2.states then StdMap.touch acc.exit_transition dstModel.1 0
      else acc.exit_transition }

/-- The entries that the `operator[]` reads of `forward_update` insert. -/
def forward_update_touch (h : HierarchicalHMM) : HierarchicalHMM :=
  h.models.foldl (forward_update_touch_step h.models) h

/-- Source: `HierarchicalHMM::forward_update`. -/
def forward_update (ext : Collaborators) (h : HierarchicalHMM) (observation : Observation) :
    Except Exception HierarchicalHMM :=
  match ext.checkTraining h with
  | .error e => .error e
  | .ok _ =>
    let hf := withFrontier h
    .ok { forward_update_touch hf with
      models := hf.models.map (fun dstModel =>
        (dstModel.1, normalizeAlpha (forward_update_norm_const h observation)
          (forward_update_class hf observation dstModel.1 dstModel.2))) }

/-! ## Result aggregator -/

/-- Writing `vals[i]` to `v[i]` for every `i < vals.length`. -/
def writeFirst (vals v : List ℚ) : List ℚ := vals ++ v.drop vals.length

/-- The scalars of the first loop of `updateResults` after the iteration for
the `i`-th class: `maxlog_likelihood`, `normconst_instant`,
`normconst_smoothed` and `results.likeliest`. -/
def updateResults_step (ext : Collaborators) (st : ℚ × ℚ × ℚ × Label)
    (ip : ℕ × Label × SingleClassHMM) : ℚ × ℚ × ℚ × Label :=
  let normconst_instant := st.2.1 + ip.2.2.results.instant_likelihood
  let normconst_smoothed := st.2.2.1 + ext.exp ip.2.2.results.log_likelihood
  if ip.1 = 0 ∨ ip.2.2.results.log_likelihood > st.1 then
    (ip.2.2.results.log_likelihood, normconst_instant, normconst_smoothed, ip.2.1)
  else
    (st.1, normconst_instant, normconst_smoothed, st.2.2.2)

/-- The scalars after the first loop of `updateResults`. -/
def updateResults_scalars (ext : Collaborators) (h : HierarchicalHMM) : ℚ × ℚ × ℚ × Label :=
  h.models.enum.foldl (updateResults_step ext) (0, 0, 0, h.results.likeliest)

/-- Source: `normconst_instant` of `updateResults`. -/
def normconst_instant (ext : Collaborators) (h : HierarchicalHMM) : ℚ :=
  (updateResults_scalars ext h).2.1

/-- Source: `normconst_smoothed` of `updateResults`. -/
def normconst_smoothed (ext : Collaborators) (h : HierarchicalHMM) : ℚ :=
  (updateResults_scalars ext h).2.2.1

/-- Source: `HierarchicalHMM::updateResults`. -/
def updateResults (ext : Collaborators) (h : HierarchicalHMM) : HierarchicalHMM :=
  let st := updateResults_scalars ext h
  let instant := h.models.map (fun model => model.2.results.instant_likelihood)
  let smoothed_log := h.models.map (fun model => model.2.results.log_likelihood)
  let smoothed := smoothed_log.map ext.exp
  { h with results := { h.results with
      instant_likelihoods := writeFirst instant h.results.instant_likelihoods,
      smoothed_log_likelihoods := writeFirst smoothed_log h.results.smoothed_log_likelihoods,
      smoothed_likelihoods := writeFirst smoothed h.results.smoothed_likelihoods,
      instant_normalized_likelihoods :=
        writeFirst (instant.map (fun x => x / st.2.1))
          h.results.instant_normalized_likelihoods,
      smoothed_normalized_likelihoods :=
        writeFirst (smoothed.map (fun x => x / st.2.2.1))
          h.results.smoothed_normalized_likelihoods,
      likeliest := st.2.2.2 } }

/-! ## Run control and regression blending -/

/-- Source: `std::vector::resize(n)` with value-initialised new entries. -/
def resize (v : List ℚ) (n : ℕ) : List ℚ := v.take n ++ List.replicate (n - v.length) 0

/-- The difference `dimension - dimension_input` of two `std::size_t`. -/
def dimension_output (p : SharedParameters) : ℕ :=
  (p.dimension % 2 ^ 64 + 2 ^ 64 - p.dimension_input % 2 ^ 64) % 2 ^ 64

/-- Source: `HierarchicalHMM::reset`. -/
def reset (ext : Collaborators) (h : HierarchicalHMM) : Except Exception HierarchicalHMM :=
  match ext.Model_reset h.toModel with
  | .error e => .error e
  | .ok base =>
    let n := base.models.length
    let r := h.results
    .ok { toModel := { base with
            models := base.models.map (fun model => (model.1, ext.reset model.2)) },
          results :=
            { instant_likelihoods := resize r.instant_likelihoods n,
              instant_normalized_likelihoods := resize r.instant_normalized_likelihoods n,
              smoothed_likelihoods := resize r.smoothed_likelihoods n,
              smoothed_normalized_likelihoods := resize r.smoothed_normalized_likelihoods n,
              smoothed_log_likelihoods := resize r.smoothed_log_likelihoods n,
              likeliest := r.likeliest,
              output_values :=
                if base.shared_parameters.bimodal then
                  resize r.output_values (dimension_output base.shared_parameters)
                else r.output_values,
              output_variance :=
                if base.shared_parameters.bimodal then
                  resize r.output_variance (dimension_output base.shared_parameters)
                else r.output_variance },
          prior := h.prior,
          exit_transition := h.exit_transition,
          transition := h.transition,
          frontier_v1_ := resize h.frontier_v1_ n,
          frontier_v2_ := resize h.frontier_v2_ n,
          forward_initialized_ := false }

/-- Source: `std::copy(src.begin(), src.end(), dst.begin())`. -/
def copyInto (src dst : List ℚ) : List ℚ := src ++ dst.drop src.length

/-- The accumulators `results.output_values` and `results.output_variance` of
the weighted-mixture loop of `filter` after the iteration for the `i`-th class. -/
def mixture_step (dimension_output : ℕ) (weights : List ℚ) (acc : List ℚ × List ℚ)
    (ip : ℕ × Label × SingleClassHMM) : List ℚ × List ℚ :=
  ((List.range dimension_output).map (fun d =>
      acc.1.getD d 0 + weights.getD ip.1 0 * ip.2.2.results.output_values.getD d 0),
   (List.range dimension_output).map (fun d =>
      acc.2.getD d 0 + weights.getD ip.1 0 * ip.2.2.results.output_variance.getD d 0))

/-- The bimodal part of `filter`: per-class regression, then the blending. -/
def filter_regression (ext : Collaborators) (h : HierarchicalHMM) (observation : Observation) :
    HierarchicalHMM :=
  let dimension_output := dimension_output h.shared_parameters
  let models := h.models.map (fun model => (model.1, ext.regression model.2 observation))
  if h.configuration.multiClass_regression_estimator = .Likeliest then
    let likeliest := StdMap.read models h.results.likeliest ext.defaultModel
    { h with
      models := StdMap.touch models h.results.likeliest ext.defaultModel,
      results := { h.results with
        output_values := copyInto likeliest.results.output_values h.results.output_values,
        output_variance :=
          copyInto likeliest.results.output_variance h.results.output_variance } }
  else
    let acc := models.enum.foldl
      (mixture_step dimension_output h.results.instant_normalized_likelihoods)
      (List.replicate dimension_output 0, List.replicate dimension_output 0)
    { h with
      models := models,
      results := { h.results with output_values := acc.1, output_variance := acc.2 } }

/-- The loop "Compute time progression" of `filter`. -/
def filter_progression (ext : Collaborators) (h : HierarchicalHMM) : HierarchicalHMM :=
  let models := h.models.map
    (fun model => (model.1, ext.updateResults (ext.updateAlphaWindow model.2)))
  { h with models := models }

/-- The part of `filter` that follows the forward step. -/
def filter_results (ext : Collaborators) (h : HierarchicalHMM) (observation : Observation) :
    HierarchicalHMM :=
  let h1 := updateResults ext (filter_progression ext h)
  if h1.shared_parameters.bimodal then filter_regression ext h1 observation else h1

/-- Source: `HierarchicalHMM::filter`. -/
def filter (ext : Collaborators) (h : HierarchicalHMM) (observation : Observation) :
    Except Exception HierarchicalHMM :=
  match ext.checkTraining h with
  | .error e => .error e
  | .ok _ =>
    match (if h.forward_initialized_ then forward_update ext h observation
           else forward_init ext h observation) with
    | .error e => .error e
    | .ok h1 => .ok (filter_results ext h1 observation)

/-! ## Serializer -/

/-- The loop of `toJson` over a `std::map<string, double>`: entry `i` of the
array is written for the `i`-th entry of the map. -/
def toJson_list (m : StdMap ℚ) (a : List (Option LabelProbability)) :
    List (Option LabelProbability) :=
  m.enum.foldl (fun a ip => jsonWrite a ip.1 ⟨ip.2.1, ip.2.2⟩) a

/-- The nested loop of `toJson` over `transition`, with its counter `i`. -/
def toJson_transition (t : StdMap (StdMap ℚ)) (a : List (Option TransitionRecord)) :
    List (Option TransitionRecord) × ℕ :=
  t.foldl
    (fun st srcit => srcit.2.foldl
      (fun st dstit => (jsonWrite st.1 st.2 ⟨srcit.1, dstit.1, dstit.2⟩, st.2 + 1)) st)
    (a, 0)

/-- Source: `HierarchicalHMM::toJson`.  `Json::ArrayIndex` is a 32-bit unsigned integer. -/
def toJson (ext : Collaborators) (h : HierarchicalHMM) : Except Exception Json :=
  match ext.checkTraining h with
  | .error e => .error e
  | .ok _ =>
    let root := ext.Model_toJson h.toModel
    .ok { prior := toJson_list h.prior (jsonResize root.prior (h.size % 2 ^ 32)),
          transition :=
            (toJson_transition h.transition
              (jsonResize root.transition ((h.size * h.size) % 2 ^ 32))).1,
          exit_transition :=
            toJson_list h.exit_transition (jsonResize root.exit_transition (h.size % 2 ^ 32)) }

/-- The loops of the Json constructor that fill `prior` and `exit_transition`. -/
def decodeList (a : List (Option LabelProbability)) : StdMap ℚ :=
  a.foldl (fun m p =>
    StdMap.assign m (LabelProbability.labelOf p) (LabelProbability.probabilityOf p)) []

/-- The loop of the Json constructor that fills `transition`. -/
def decodeTransition (a : List (Option TransitionRecord)) : StdMap (StdMap ℚ) :=
  a.foldl (fun t p =>
    assign2 t (TransitionRecord.srcOf p) (TransitionRecord.dstOf p)
      (TransitionRecord.probabilityOf p)) []

/-- The constructor `HierarchicalHMM(Json::Value const &root)`. -/
def HierarchicalHMM.ctor_Json (ext : Collaborators) (root : Json) :
    Except Exception HierarchicalHMM :=
  match ext.Model_ctor_Json root with
  | .error e => .error e
  | .ok base =>
    .ok { toModel := base,
          results := Results.empty,
          prior := decodeList root.prior,
          exit_transition := decodeList root.exit_transition,
          transition := decodeTransition root.transition,
          frontier_v1_ := [],
          frontier_v2_ := [],
          forward_initialized_ := false }

/-- The copy constructor `HierarchicalHMM(HierarchicalHMM const &src)`. -/
def HierarchicalHMM.ctor_copy (src : HierarchicalHMM) : HierarchicalHMM :=
  { src with forward_initialized_ := false }

/-- Source: `HierarchicalHMM::operator=`.  `same_object` is the outcome of the
test `this == &src` (then `src` is the object itself and nothing is done);
otherwise every member is copied from `src` and the forward state is marked
uninitialized. -/
def HierarchicalHMM.operator_assign (this src : HierarchicalHMM) (same_object : Bool) :
    HierarchicalHMM :=
  if same_object then this else { src with forward_initialized_ := false }

/-- Source: `HierarchicalHMM::fromJson`. -/
def fromJson (ext : Collaborators) (h : HierarchicalHMM) (root : Json) :
    Except Exception HierarchicalHMM :=
  match ext.checkTraining h with
  | .error e => .error e
  | .ok _ =>
    match HierarchicalHMM.ctor_Json ext root with
    | .error e => .error e
    | .ok tmp => .ok (HierarchicalHMM.operator_assign h tmp false)

/-! ## Concrete inputs -/

/-- A left-right class with two states, in the middle of a run. -/
def classA : SingleClassHMM :=
  { states := 2, transition_mode := .LeftRight, prior := [1, 0],
    transition := [1 / 2, 1 / 2, 1, 0], exit_probabilities_ := [0, 1 / 2],
    obsProb := fun k _ => [1 / 2, 1 / 4].getD k 0,
    obsProb_input := fun k _ => [1 / 2, 1 / 4].getD k 0,
    alpha_h0 := [1 / 4, 1 / 8], alpha_h1 := [0, 1 / 16], alpha_h2 := [0, 1 / 16],
    results := ⟨1 / 2, -1, 1 / 8, 1 / 4, [2], [1]⟩ }

/-- An ergodic class with two states, in the middle of a run. -/
def classB : SingleClassHMM :=
  { states := 2, transition_mode := .Ergodic, prior := [1 / 2, 1 / 2],
    transition := [1 / 2, 1 / 2, 1 / 2, 1 / 2], exit_probabilities_ := [0, 1 / 4],
    obsProb := fun k _ => [1 / 3, 1].getD k 0,
    obsProb_input := fun k _ => [1 / 3, 1].getD k 0,
    alpha_h0 := [1 / 4, 1 / 8], alpha_h1 := [0, 1 / 16], alpha_h2 := [0, 1 / 16],
    results := ⟨1 / 2, -2, 1 / 8, 1 / 4, [4], [3]⟩ }

/-- Collaborators for the examples: the training check passes, the per-class
`reset` clears the three forward arrays, the other per-class methods leave the
class unchanged, `exp` is a positive step function, and the base-class Json
constructor restores the classes "A" and "B". -/
def ext0 : Collaborators :=
  { checkTraining := fun _ => .ok (),
    DEFAULT_EXITTRANSITION := 1 / 10,
    exp := fun x => (2 : ℚ) ^ ⌊x⌋,
    updateExitProbabilities := fun m => m,
    addExitPoint := fun m _ _ => m,
    reset := fun m =>
      { m with alpha_h0 := List.replicate m.states 0, alpha_h1 := List.replicate m.states 0,
               alpha_h2 := List.replicate m.states 0 },
    updateAlphaWindow := fun m => m,
    updateResults := fun m => m,
    regression := fun m _ => m,
    newModel :=
      { states := 1, transition_mode := .LeftRight, prior := [1], transition := [1, 0],
        exit_probabilities_ := [0], obsProb := fun _ _ => 1, obsProb_input := fun _ _ => 1,
        alpha_h0 := [0], alpha_h1 := [0], alpha_h2 := [0],
        results := ⟨0, 0, 0, 0, [], []⟩ },
    defaultModel :=
      { states := 0, transition_mode := .Ergodic, prior := [], transition := [],
        exit_probabilities_ := [], obsProb := fun _ _ => 0, obsProb_input := fun _ _ => 0,
        alpha_h0 := [], alpha_h1 := [], alpha_h2 := [],
        results := ⟨0, 0, 0, 0, [], []⟩ },
    Model_reset := fun m => .ok m,
    Model_clear := fun m => { m with models := [] },
    Model_toJson := fun _ => ⟨[], [], []⟩,
    Model_ctor_Json := fun _ =>
      .ok ⟨[("A", classA), ("B", classB)], ⟨false, 1, 0⟩, ⟨.Likeliest⟩⟩ }

/-- A hierarchy of the classes "A" and "B" with the default tables, streaming. -/
def hierAB : HierarchicalHMM :=
  { models := [("A", classA), ("B", classB)],
    shared_parameters := ⟨false, 1, 0⟩,
    configuration := ⟨.Likeliest⟩,
    results := ⟨[0, 0], [0, 0], [0, 0], [0, 0], [0, 0], "", [], []⟩,
    prior := [("A", 1 / 2), ("B", 1 / 2)],
    exit_transition := [("A", 1 / 10), ("B", 1 / 10)],
    transition := [("A", [("A", 1 / 2), ("B", 1 / 2)]), ("B", [("A", 1 / 2), ("B", 1 / 2)])],
    frontier_v1_ := [0, 0],
    frontier_v2_ := [0, 0],
    forward_initialized_ := true }

/-- Source: `addModelForClass(label)` followed by `removeClass(label)`. -/
def addThenRemove (ext : Collaborators) (h : HierarchicalHMM) (label : Label) :
    Except Exception HierarchicalHMM :=
  match addModelForClass ext h label with
  | .error e => .error e
  | .ok h1 => removeClass ext h1 label

/-- The hierarchy `hierAB` with a non-uniform Prior and Transition (trained or
loaded weights). -/
def hierCustom : HierarchicalHMM :=
  { hierAB with
    prior := [("A", 3 / 10), ("B", 7 / 10)],
    transition := [("A", [("A", 9 / 10), ("B", 1 / 10)]), ("B", [("A", 1 / 5), ("B", 4 / 5)])] }

/-- The records of `transition` in the order in which `toJson` writes them. -/
def transitionRecords (t : StdMap (StdMap ℚ)) : List TransitionRecord :=
  t.flatMap (fun r => r.2.map (fun p => ⟨r.1, p.1, p.2⟩))

/-- A document whose `transition` list names the label "Z", which is no class. -/
def docZ : Json :=
  { prior := [some ⟨"A", 1 / 2⟩, some ⟨"B", 1 / 2⟩],
    transition := [some ⟨"A", "Z", 1⟩],
    exit_transition := [some ⟨"A", 1 / 10⟩, some ⟨"B", 1 / 10⟩] }

/-- The hierarchy `hierAB` with classes whose emission probability is 0 for
every state (an observation far from every state). -/
def hierSilent : HierarchicalHMM :=
  { hierAB with
    models := [("A", { classA with obsProb := fun _ _ => 0, obsProb_input := fun _ _ => 0 }),
               ("B", { classB with obsProb := fun _ _ => 0, obsProb_input := fun _ _ => 0 })] }

/-- Whether `transition` holds an entry for the pair `(src, dst)`. -/
def hasEntry (t : StdMap (StdMap ℚ)) (src dst : Label) : Bool :=
  ((StdMap.find t src).bind (fun row => StdMap.find row dst)).isSome

/-- A bimodal hierarchy before its first frame: two left-right classes of one
state with input emission 1/4 and 3/4 and regression outputs 2 and 4
(variances 1 and 3); weighted-mixture estimator. -/
def hierMix : HierarchicalHMM :=
  { models :=
      [("A", { states := 1, transition_mode := .LeftRight, prior := [1], transition := [1, 0],
               exit_probabilities_ := [0], obsProb := fun _ _ => 1,
               obsProb_input := fun _ _ => 1 / 4,
               alpha_h0 := [0], alpha_h1 := [0], alpha_h2 := [0],
               results := ⟨0, 0, 0, 0, [2], [1]⟩ }),
       ("B", { states := 1, transition_mode := .LeftRight, prior := [1], transition := [1, 0],
               exit_probabilities_ := [0], obsProb := fun _ _ => 1,
               obsProb_input := fun _ _ => 3 / 4,
               alpha_h0 := [0], alpha_h1 := [0], alpha_h2 := [0],
               results := ⟨0, 0, 0, 0, [4], [3]⟩ })],
    shared_parameters := ⟨true, 2, 1⟩,
    configuration := ⟨.Mixture⟩,
    results := ⟨[0, 0], [0, 0], [0, 0], [0, 0], [0, 0], "", [0], [0]⟩,
    prior := [("A", 1 / 2), ("B", 1 / 2)],
    exit_transition := [("A", 1 / 10), ("B", 1 / 10)],
    transition := [("A", [("A", 1 / 2), ("B", 1 / 2)]), ("B", [("A", 1 / 2), ("B", 1 / 2)])],
    frontier_v1_ := [0, 0],
    frontier_v2_ := [0, 0],
    forward_initialized_ := false }

/-- The sum of the Prior values over the class labels. -/
def priorTotal (h : HierarchicalHMM) : ℚ :=
  ((StdMap.keys h.models).map (fun l => StdMap.read h.prior l 0)).sum

/-- The sum of the Transition row of `src` over the class labels. -/
def rowSum (h : HierarchicalHMM) (src : Label) : ℚ :=
  ((StdMap.keys h.models).map (fun dst => read2 h.transition src dst)).sum

/-- A hierarchy of the classes "A" and "B" with externally set weights that
are not normalized; the Transition row of "B" is zero. -/
def hierRaw : HierarchicalHMM :=
  { hierAB with
    prior := [("A", 1), ("B", 3)],
    transition := [("A", [("A", 2), ("B", 6)]), ("B", [("A", 0), ("B", 0)])] }

/-- The cross-class inflow into the class `dst` that `forward_update`
accumulates in its loop `for (auto &srcModel : models)`: the sum of
`frontierTerm` over all classes.  `h` holds the frontier vectors of the frame. -/
def crossClassInflow (h : HierarchicalHMM) (dst : Label) : ℚ :=
  (h.models.enum.map (frontierTerm h dst)).sum

/-- The term of the cross-class inflow into `dst` for a source class `src`, from
the forward arrays of the previous frame: total soft-exit mass of `src` times
`transition[src][dst]` plus `prior[dst]` times total hard-exit mass of `src`. -/
def inflowTerm (h : HierarchicalHMM) (dst : Label) (src : Label × SingleClassHMM) : ℚ :=
  likelihoodAlpha_class 1 src.2 * read2 h.transition src.1 dst
    + StdMap.read h.prior dst 0 * likelihoodAlpha_class 2 src.2

/-- The cross-class inflow in the words of the spec: the sum of `inflowTerm` over
every class other than `dst`. -/
def crossClassInflow_others (h : HierarchicalHMM) (dst : Label) : ℚ :=
  ((h.models.filter (fun src => decide (src.1 ≠ dst))).map (inflowTerm h dst)).sum

/-! ## Ring buffer (`utility.h`) -/

/-- Source: `RingBuffer<T, channels>` with `T` a floating-point type: the
template parameter `channels`, the array `data` of `channels` vectors, and the
`unsigned int` members `length` and `index`. -/
structure RingBuffer where
  channels : ℕ
  data : List (List ℚ)
  length : ℕ
  index : ℕ
  full : Bool
  deriving DecidableEq, Repr

namespace RingBuffer

/-- Source: `T operator()(unsigned int c, unsigned int i)`. -/
def operator_call (b : RingBuffer) (c i : ℕ) : Except Exception ℚ :=
  if c ≥ b.channels then .error (.out_of_range "channel out of bounds")
  else
    let m := if b.full then b.length else b.index
    if i ≥ m then .error (.out_of_range "index out of bounds")
    else .ok ((b.data.getD c []).getD i 0)

/-- Source: `unsigned int size() const`. -/
def size (b : RingBuffer) : ℕ := b.length

/-- Source: `void resize(unsigned int length_)`. -/
def resize (b : RingBuffer) (length_ : ℕ) : RingBuffer :=
  if length_ = b.length then b
  else
    let b1 : RingBuffer :=
      if length_ > b.length then { b with full := false }
      else if b.index ≥ length_ then { b with full := true, index := 0 }
      else b
    { b1 with length := length_,
              data := b1.data.enum.map (fun p =>
                if p.1 < b1.channels then xmm.resize p.2 length_ else p.2) }

end RingBuffer

/-- A one-channel ring buffer of length 3 after the pushes 5 and 7. -/
def ringTwo : RingBuffer :=
  { channels := 1, data := [[5, 7, 0]], length := 3, index := 2, full := false }

/-- The hypotheses of non-negativity on the state before a `forward_update`:
in every class the entries of the three forward arrays, the internal transition
weights and the internal prior are non-negative, the exit probabilities lie in
[0, 1) and the emission probability of every state is non-negative for the
observation; the Prior values and the Transition weights of the hierarchy are
non-negative and the exit-transition values lie in [0, 1]. -/
def NonNegativeInputs (h : HierarchicalHMM) (observation : Observation) : Prop :=
  (∀ p ∈ h.models,
    (∀ x ∈ p.2.alpha_h0, 0 ≤ x) ∧ (∀ x ∈ p.2.alpha_h1, 0 ≤ x) ∧ (∀ x ∈ p.2.alpha_h2, 0 ≤ x)
    ∧ (∀ x ∈ p.2.transition, 0 ≤ x) ∧ (∀ x ∈ p.2.prior, 0 ≤ x)
    ∧ (∀ x ∈ p.2.exit_probabilities_, 0 ≤ x ∧ x < 1)
    ∧ (∀ k, k < p.2.states → 0 ≤ emission h.shared_parameters.bimodal p.2 k observation))
  ∧ (∀ e ∈ h.prior, 0 ≤ e.2)
  ∧ (∀ row ∈ h.transition, ∀ e ∈ row.2, 0 ≤ e.2)
  ∧ (∀ e ∈ h.exit_transition, 0 ≤ e.2 ∧ e.2 ≤ 1)

instance (h : HierarchicalHMM) (observation : Observation) :
    Decidable (NonNegativeInputs h observation) := by
  unfold NonNegativeInputs
  infer_instance

/-- The collaborators `ext0` with an `exp` that returns 0 for arguments up to
-746, where the `exp` of `<cmath>` underflows to 0 on doubles. -/
def extUnderflow : Collaborators :=
  { ext0 with exp := fun x => if x ≤ -746 then 0 else (2 : ℚ) ^ ⌊x⌋ }

/-- The hierarchy `hierAB` with the smoothed log-likelihoods -1000 and -2000 in
its classes (instantaneous likelihoods 1/2 each). -/
def hierFaint : HierarchicalHMM :=
  { hierAB with
    models := [("A", { classA with results := ⟨1 / 2, -1000, 1 / 8, 1 / 4, [2], [1]⟩ }),
               ("B", { classB with results := ⟨1 / 2, -2000, 1 / 8, 1 / 4, [4], [3]⟩ })] }

/-! ## Measures used in the statements -/

/-- The sum of all entries of the three forward arrays of one class. -/
def SingleClassHMM.mass (m : SingleClassHMM) : ℚ :=
  m.alpha_h0.sum + m.alpha_h1.sum + m.alpha_h2.sum

/-- The sum over all classes of all entries of the three forward arrays. -/
def totalMass (models : StdMap SingleClassHMM) : ℚ :=
  (models.map (fun model => model.2.mass)).sum

/-! ## Auxiliary lemmas: loops as sums -/

theorem foldl_add_eq_sum {α : Type} (f : α → ℚ) (l : List α) (a : ℚ) :
    l.foldl (fun acc x => acc + f x) a = a + (l.map f).sum := by
  induction l generalizing a with
  | nil => simp
  | cons x t ih => simp [List.foldl_cons, ih, add_assoc]

theorem foldl_foldl_add_eq_sum {α β : Type} (g : α → List β) (f : α → β → ℚ)
    (l : List α) (a : ℚ) :
    l.foldl (fun acc x => (g x).foldl (fun acc y => acc + f x y) acc) a
      = a + (l.map (fun x => ((g x).map (f x)).sum)).sum := by
  induction l generalizing a with
  | nil => simp
  | cons x t ih => simp [List.foldl_cons, ih, foldl_add_eq_sum, add_assoc]

theorem sum_map_div_const (l : List ℚ) (c : ℚ) :
    (l.map (fun x => x / c)).sum = l.sum / c := by
  induction l with
  | nil => simp
  | cons x t ih => simp [ih, add_div]

theorem divFirst_eq_map (N : ℕ) (c : ℚ) (v : List ℚ) (hv : v.length = N) :
    divFirst N c v = v.map (fun x => x / c) := by
  subst hv
  simp [divFirst]

theorem sum_divFirst (N : ℕ) (c : ℚ) (v : List ℚ) (hv : v.length = N) :
    (divFirst N c v).sum = v.sum / c := by
  rw [divFirst_eq_map N c v hv, sum_map_div_const]

theorem sum_map_add {α : Type} (f g : α → ℚ) (l : List α) :
    (l.map (fun x => f x + g x)).sum = (l.map f).sum + (l.map g).sum := by
  induction l with
  | nil => simp
  | cons x t ih => simp [ih]; ring

/-! ## Forward update: probability conservation -/

theorem mass_normalizeAlpha (c : ℚ) (m : SingleClassHMM)
    (h0 : m.alpha_h0.length = m.states) (h1 : m.alpha_h1.length = m.states)
    (h2 : m.alpha_h2.length = m.states) :
    (normalizeAlpha c m).mass = m.mass / c := by
  simp only [SingleClassHMM.mass, normalizeAlpha]
  rw [sum_divFirst _ _ _ h0, sum_divFirst _ _ _ h1, sum_divFirst _ _ _ h2]
  ring

theorem mass_forward_update_class (h : HierarchicalHMM) (obs : Observation) (dst : Label)
    (m : SingleClassHMM) :
    (forward_update_class h obs dst m).mass
      = ((List.range m.states).map (forward_update_tmp h obs dst m)).sum := by
  simp only [SingleClassHMM.mass, forward_update_class]
  rw [← sum_map_add, ← sum_map_add]
  congr 1
  apply List.map_congr_left
  intro k _
  ring

theorem totalMass_forward_update (h : HierarchicalHMM) (obs : Observation) (c : ℚ) :
    totalMass ((withFrontier h).models.map (fun dstModel =>
        (dstModel.1, normalizeAlpha c
          (forward_update_class (withFrontier h) obs dstModel.1 dstModel.2))))
      = forward_update_norm_const h obs / c := by
  simp only [totalMass, forward_update_norm_const, foldl_foldl_add_eq_sum, zero_add,
    List.map_map]
  rw [← sum_map_div_const, List.map_map]
  congr 1
  apply List.map_congr_left
  intro p _
  simp only [Function.comp]
  rw [mass_normalizeAlpha _ _ (by simp [forward_update_class])
    (by simp [forward_update_class]) (by simp [forward_update_class]),
    mass_forward_update_class]

namespace StdMap

variable {V : Type}

theorem find_assign_self (m : StdMap V) (k : Label) (v : V) :
    find (assign m k v) k = some v := by
  induction m with
  | nil => simp [assign, find]
  | cons p t ih =>
    obtain ⟨k', v'⟩ := p
    by_cases h1 : k < k'
    · simp [assign, find, h1]
    · by_cases h2 : k = k'
      · simp [assign, find, h1, h2]
      · have h3 : ¬ k' = k := fun e => h2 e.symm
        simp [assign, find, h1, h2, h3, ih]

theorem find_assign_ne (m : StdMap V) (k k0 : Label) (v : V) (hne : k0 ≠ k) :
    find (assign m k v) k0 = find m k0 := by
  induction m with
  | nil =>
    have h3 : ¬ k = k0 := fun e => hne e.symm
    simp [assign, find, h3]
  | cons p t ih =>
    obtain ⟨k', v'⟩ := p
    have h3 : ¬ k = k0 := fun e => hne e.symm
    by_cases h1 : k < k'
    · simp [assign, find, h1, h3]
    · by_cases h2 : k = k'
      · subst h2
        simp [assign, find, h3]
      · simp [assign, find, h1, h2, ih]

theorem read_assign_self (m : StdMap V) (k : Label) (v d : V) :
    read (assign m k v) k d = v := by
  simp [read, find_assign_self]

theorem read_assign_ne (m : StdMap V) (k k0 : Label) (v d : V) (hne : k0 ≠ k) :
    read (assign m k v) k0 d = read m k0 d := by
  simp [read, find_assign_ne m k k0 v hne]

theorem read_foldl_assign_const {α : Type} (l : List (Label × α)) (c d : V)
    (m0 : StdMap V) (k : Label) :
    read (l.foldl (fun pr x => assign pr x.1 c) m0) k d
      = if k ∈ l.map Prod.fst then c else read m0 k d := by
  induction l generalizing m0 with
  | nil => simp
  | cons x t ih =>
    rw [List.foldl_cons, ih]
    by_cases h1 : k ∈ t.map Prod.fst
    · simp [h1]
    · by_cases h2 : k = x.1
      · subst h2
        simp [read_assign_self]
      · simp only [List.map_cons, List.mem_cons, h1, h2, or_self, if_false]
        exact read_assign_ne m0 x.1 k c d h2

end StdMap

theorem read2_assign2 (t : StdMap (StdMap ℚ)) (s d s0 d0 : Label) (v : ℚ) :
    read2 (assign2 t s d v) s0 d0 = if s0 = s ∧ d0 = d then v else read2 t s0 d0 := by
  by_cases h1 : s0 = s
  · subst h1
    by_cases h2 : d0 = d
    · subst h2
      simp [read2, assign2, StdMap.read_assign_self]
    · simp [read2, assign2, StdMap.read_assign_self, StdMap.read_assign_ne _ _ _ _ _ h2, h2]
  · simp [read2, assign2, StdMap.read_assign_ne _ _ _ _ _ h1, h1]

theorem read2_foldl_assign2_const {α : Type} (l : List (Label × α)) (c : ℚ)
    (t0 : StdMap (StdMap ℚ)) (s s0 d0 : Label) :
    read2 (l.foldl (fun t x => assign2 t s x.1 c) t0) s0 d0
      = if s0 = s ∧ d0 ∈ l.map Prod.fst then c else read2 t0 s0 d0 := by
  induction l generalizing t0 with
  | nil => simp
  | cons x t ih =>
    rw [List.foldl_cons, ih, read2_assign2]
    by_cases h1 : s0 = s
    · by_cases h2 : d0 ∈ t.map Prod.fst
      · simp [h1, h2]
      · by_cases h3 : d0 = x.1
        · simp [h1, h3]
        · simp [h1, h2, h3]
    · simp [h1]

theorem read2_updateTransition_fold {α β : Type} (outer : List (Label × α))
    (inner : List (Label × β)) (e c : ℚ) (st : StdMap ℚ × StdMap (StdMap ℚ))
    (s0 d0 : Label) :
    read2 (outer.foldl
        (fun (st : StdMap ℚ × StdMap (StdMap ℚ)) srcModel =>
          (StdMap.assign st.1 srcModel.1 e,
           inner.foldl (fun t dstModel => assign2 t srcModel.1 dstModel.1 c) st.2)) st).2 s0 d0
      = if s0 ∈ outer.map Prod.fst ∧ d0 ∈ inner.map Prod.fst then c else read2 st.2 s0 d0 := by
  induction outer generalizing st with
  | nil => simp
  | cons x t ih =>
    rw [List.foldl_cons, ih]
    simp only [read2_foldl_assign2_const]
    by_cases h1 : d0 ∈ inner.map Prod.fst
    · by_cases h2 : s0 ∈ t.map Prod.fst
      · simp [h1, h2]
      · by_cases h3 : s0 = x.1
        · simp [h1, h3]
        · simp [h1, h2, h3]
    · simp [h1]

/-! ## Default parameters -/

theorem sum_map_const_of_mem {α : Type} (l : List α) (f : α → ℚ) (c : ℚ)
    (hf : ∀ x ∈ l, f x = c) : (l.map f).sum = l.length * c := by
  induction l with
  | nil => simp
  | cons x t ih =>
    simp only [List.map_cons, List.sum_cons, List.length_cons]
    rw [ih (fun y hy => hf y (List.mem_cons_of_mem _ hy)), hf x (List.mem_cons_self _ _)]
    push_cast
    ring

/-- C3. After the default-parameter derivation (`updatePrior` followed by
`updateTransition`) of a hierarchy with at least one class, the Prior values
sum to 1 over the class labels and every Transition row sums to 1 over the
destination labels. -/
theorem default_parameters_sum_to_one (ext : Collaborators) (h : HierarchicalHMM)
    (hN : 1 ≤ h.size) :
    ((StdMap.keys (updateTransition ext (updatePrior h)).models).map
        (fun l => StdMap.read (updateTransition ext (updatePrior h)).prior l 0)).sum = 1
    ∧ ∀ src ∈ StdMap.keys (updateTransition ext (updatePrior h)).models,
        ((StdMap.keys (updateTransition ext (updatePrior h)).models).map
          (fun dst => read2 (updateTransition ext (updatePrior h)).transition src dst)).sum
          = 1 := by
  have hne : ((h.models.length : ℕ) : ℚ) ≠ 0 := by
    have : 0 < h.models.length := hN
    exact_mod_cast this.ne'
  constructor
  · rw [sum_map_const_of_mem _ _ (1 / (h.size : ℚ))]
    · simp only [updateTransition, updatePrior, StdMap.keys, List.length_map,
        HierarchicalHMM.size]
      field_simp
    · intro l hl
      simp only [updateTransition, updatePrior, StdMap.keys] at hl ⊢
      rw [StdMap.read_foldl_assign_const]
      simp [hl]
  · intro src hsrc
    rw [sum_map_const_of_mem _ _ (1 / (h.size : ℚ))]
    · simp only [updateTransition, updatePrior, StdMap.keys, List.length_map,
        HierarchicalHMM.size]
      field_simp
    · intro dst hdst
      simp only [updateTransition, updatePrior, StdMap.keys] at hsrc hdst ⊢
      rw [read2_updateTransition_fold]
      simp only [HierarchicalHMM.size]
      rw [if_pos ⟨hsrc, hdst⟩]

/-- Witness of C3: the two-class hierarchy `hierAB`. -/
theorem default_parameters_sum_to_one_witness :
    1 ≤ hierAB.size
    ∧ ((StdMap.keys (updateTransition ext0 (updatePrior hierAB)).models).map
        (fun l => StdMap.read (updateTransition ext0 (updatePrior hierAB)).prior l 0)).sum = 1 :=
  ⟨by decide, (default_parameters_sum_to_one ext0 hierAB (by decide)).1⟩

/-! ## First frame -/

theorem sum_map_getD_range (l : List ℚ) :
    ((List.range l.length).map (fun i => l.getD i 0)).sum = l.sum := by
  have : (List.range l.length).map (fun i => l.getD i 0) = l := by
    apply List.ext_getElem
    · simp
    · intro i h1 h2
      simp [List.getD_eq_getElem?_getD, List.getElem?_eq_getElem h2]
  rw [this]

theorem mass_forward_init_class (bimodal : Bool) (prior : StdMap ℚ) (obs : Observation)
    (label : Label) (m : SingleClassHMM)
    (hclear : m.transition_mode = .Ergodic → m.results.instant_likelihood = 0) :
    (forward_init_class bimodal prior obs label m).mass
      = (forward_init_class bimodal prior obs label m).results.instant_likelihood := by
  cases hm : m.transition_mode with
  | Ergodic =>
    simp only [SingleClassHMM.mass, forward_init_class, hm, hclear hm, foldl_add_eq_sum]
    have := sum_map_getD_range ((List.range m.states).map
      (fun i => m.prior.getD i 0 * emission bimodal m i obs))
    simp only [List.length_map, List.length_range] at this
    rw [this]
    simp
  | LeftRight =>
    simp only [SingleClassHMM.mass, forward_init_class, hm]
    cases m.states with
    | zero => simp
    | succ n => simp [List.replicate_succ]

/-- First-frame conservation when no ergodic class carries an instantaneous
likelihood from an earlier run. -/
theorem forward_init_conserves_of_cleared (ext : Collaborators) (h : HierarchicalHMM)
    (observation : Observation) (hcheck : ext.checkTraining h = .ok ())
    (hclear : ∀ model ∈ h.models, model.2.transition_mode = .Ergodic →
      model.2.results.instant_likelihood = 0)
    (hnorm : forward_init_norm_const h observation ≠ 0) :
    ∃ h', forward_init ext h observation = .ok h' ∧ totalMass h'.models = 1 := by
  refine ⟨_, by simp only [forward_init, hcheck]; rfl, ?_⟩
  simp only [totalMass, List.map_map]
  have hc : forward_init_norm_const h observation
      = ((forward_init_models h observation).map
          (fun model => model.2.results.instant_likelihood)).sum := by
    simp [forward_init_norm_const, foldl_add_eq_sum]
  have hs : ((forward_init_models h observation).map
      ((fun model : Label × SingleClassHMM => model.2.mass) ∘
        fun model => (model.1, normalizeAlpha (forward_init_norm_const h observation) model.2)))
      = ((forward_init_models h observation).map
          (fun model => model.2.results.instant_likelihood)).map
            (fun x => x / forward_init_norm_const h observation) := by
    rw [List.map_map]
    simp only [forward_init_models, List.map_map]
    apply List.map_congr_left
    intro p hp
    simp only [Function.comp]
    rw [mass_normalizeAlpha, mass_forward_init_class _ _ _ _ _ (hclear p hp)]
    all_goals (simp only [forward_init_class]; split <;> simp)
  rw [hs, sum_map_div_const, ← hc]
  exact div_self hnorm

/-- C2 (code defect). `hierAB` is mid-run; `reset` clears the forward arrays and
leaves the instantaneous likelihood 1/2 of the ergodic class "B" in place; the
next `forward_init` adds to it, so the normalization constant is 17/12 while the
arrays hold 11/12: the normalized arrays sum to 11/17, not to 1. -/
theorem forward_init_after_reset_loses_mass :
    ((reset ext0 hierAB).toOption.map (fun h1 => forward_init_norm_const h1 [])) = some (17 / 12)
    ∧ ((reset ext0 hierAB).toOption.bind (fun h1 => (forward_init ext0 h1 []).toOption)).map
        (fun h2 => totalMass h2.models) = some (11 / 17) := by
  constructor <;> decide!

/-! ## Auxiliary lemmas: ordered maps -/

namespace StdMap
variable {V : Type}

theorem find_eq_none_iff (m : StdMap V) (k : Label) : find m k = none ↔ k ∉ keys m := by
  induction m with
  | nil => simp [find, keys]
  | cons p t ih =>
    obtain ⟨k', v'⟩ := p
    by_cases h : k' = k
    · simp [find, keys, h]
    · have h' : ¬ k = k' := fun e => h e.symm
      simp only [find, h, if_false, ih, keys, List.map_cons, List.mem_cons, h', false_or]

theorem assign_of_forall_lt (m : StdMap V) (k : Label) (v : V)
    (hlt : ∀ x ∈ keys m, x < k) : assign m k v = m ++ [(k, v)] := by
  induction m with
  | nil => simp [assign]
  | cons p t ih =>
    obtain ⟨k', v'⟩ := p
    have h1 : k' < k := hlt k' (by simp [keys])
    have h2 : ¬ k < k' := lt_asymm h1
    have h3 : ¬ k = k' := fun e => (lt_irrefl k') (e ▸ h1)
    have ht : ∀ x ∈ keys t, x < k := fun x hx => hlt x (by simp [keys] at hx ⊢; exact Or.inr hx)
    simp [assign, h2, h3, ih ht]

theorem foldl_assign_of_sorted {α : Type} (f : Label × α → V) (l : List (Label × α))
    (acc : StdMap V) (hs : (keys acc ++ l.map Prod.fst).Pairwise (fun a b => a < b)) :
    l.foldl (fun m p => assign m p.1 (f p)) acc = acc ++ l.map (fun p => (p.1, f p)) := by
  induction l generalizing acc with
  | nil => simp
  | cons x t ih =>
    have hlt : ∀ y ∈ keys acc, y < x.1 := by
      intro y hy
      rw [List.pairwise_append] at hs
      exact hs.2.2 y hy x.1 (by simp)
    rw [List.foldl_cons, assign_of_forall_lt acc x.1 (f x) hlt, ih]
    · simp
    · simpa [keys] using hs

theorem mem_keys_assign (m : StdMap V) (k : Label) (v : V) (x : Label)
    (hx : x ∈ keys (assign m k v)) : x = k ∨ x ∈ keys m := by
  induction m with
  | nil => simpa [assign, keys] using hx
  | cons p t ih =>
    obtain ⟨k', v'⟩ := p
    by_cases h1 : k < k'
    · simp only [assign, h1, if_true, keys, List.map_cons, List.mem_cons] at hx ⊢
      exact hx
    · by_cases h2 : k = k'
      · subst h2
        simp only [assign, lt_irrefl, if_true, if_false, keys, List.map_cons,
          List.mem_cons] at hx ⊢
        rcases hx with hx | hx
        · exact Or.inl hx
        · exact Or.inr (Or.inr hx)
      · simp only [assign, h1, h2, if_false, keys, List.map_cons, List.mem_cons] at hx ⊢
        rcases hx with hx | hx
        · exact Or.inr (Or.inl hx)
        · rcases ih hx with h | h
          · exact Or.inl h
          · exact Or.inr (Or.inr h)

theorem WF_assign (m : StdMap V) (k : Label) (v : V) (hm : WF m) : WF (assign m k v) := by
  induction m with
  | nil => simp [assign, WF, keys]
  | cons p t ih =>
    obtain ⟨k', v'⟩ := p
    have hm' : (∀ y ∈ keys t, k' < y) ∧ WF t := by
      simpa [WF, keys] using hm
    by_cases h1 : k < k'
    · simp only [assign, h1, if_true, WF, keys, List.map_cons, List.pairwise_cons]
      refine ⟨?_, ?_⟩
      · intro y hy
        rcases List.mem_cons.1 hy with hy | hy
        · exact hy ▸ h1
        · exact lt_trans h1 (hm'.1 y hy)
      · simpa [WF, keys] using hm
    · by_cases h2 : k = k'
      · subst h2
        simpa [assign, WF, keys] using hm
      · have h3 : k' < k := lt_of_le_of_ne (not_lt.1 h1) (fun e => h2 e.symm)
        simp only [assign, h1, h2, if_false, WF, keys, List.map_cons, List.pairwise_cons]
        refine ⟨?_, ih hm'.2⟩
        intro y hy
        rcases mem_keys_assign t k v y hy with h | h
        · exact h ▸ h3
        · exact hm'.1 y h

theorem length_assign_of_not_mem (m : StdMap V) (k : Label) (v : V) (hk : find m k = none) :
    (assign m k v).length = m.length + 1 := by
  induction m with
  | nil => simp [assign]
  | cons p t ih =>
    obtain ⟨k', v'⟩ := p
    by_cases h : k' = k
    · simp [find, h] at hk
    · have h' : ¬ k = k' := fun e => h e.symm
      simp only [find, h, if_false] at hk
      by_cases h1 : k < k'
      · simp [assign, h1]
      · simp [assign, h1, h', ih hk]

theorem erase_assign_of_not_mem (m : StdMap V) (k : Label) (v : V) (hk : find m k = none) :
    erase (assign m k v) k = m := by
  induction m with
  | nil => simp [assign, erase]
  | cons p t ih =>
    obtain ⟨k', v'⟩ := p
    by_cases h : k' = k
    · simp [find, h] at hk
    · have h' : ¬ k = k' := fun e => h e.symm
      simp only [find, h, if_false] at hk
      by_cases h1 : k < k'
      · simp [assign, erase, h1]
      · simp [assign, erase, h1, h', h, ih hk]

theorem find_map_val {W : Type} (g : V → W) (m : StdMap V) (k : Label) :
    find (m.map (fun p => (p.1, g p.2))) k = (find m k).map g := by
  induction m with
  | nil => simp [find]
  | cons p t ih =>
    obtain ⟨k', v'⟩ := p
    by_cases h : k' = k
    · simp [find, h]
    · simp [find, h, ih]

theorem erase_map_val {W : Type} (g : V → W) (m : StdMap V) (k : Label) :
    erase (m.map (fun p => (p.1, g p.2))) k = (erase m k).map (fun p => (p.1, g p.2)) := by
  induction m with
  | nil => simp [erase]
  | cons p t ih =>
    obtain ⟨k', v'⟩ := p
    by_cases h : k' = k
    · simp [erase, h]
    · simp [erase, h, ih]

end StdMap
/-! ## Adding and removing a class -/

theorem updatePrior_prior_congr (h g : HierarchicalHMM)
    (hk : StdMap.keys h.models = StdMap.keys g.models) :
    (updatePrior h).prior = (updatePrior g).prior := by
  have hlen : h.models.length = g.models.length := by
    have := congrArg List.length hk
    simpa [StdMap.keys] using this
  have e : ∀ (l : List (Label × SingleClassHMM)) (c : ℚ),
      l.foldl (fun pr model => StdMap.assign pr model.1 c) ([] : StdMap ℚ)
        = (l.map Prod.fst).foldl (fun pr k => StdMap.assign pr k c) [] := by
    intro l c
    rw [List.foldl_map]
  simp only [updatePrior, HierarchicalHMM.size, e, hlen]
  simp only [StdMap.keys] at hk
  rw [hk]

theorem updateTransition_congr (ext : Collaborators) (h g : HierarchicalHMM)
    (hk : StdMap.keys h.models = StdMap.keys g.models) :
    (updateTransition ext h).transition = (updateTransition ext g).transition
    ∧ (updateTransition ext h).exit_transition = (updateTransition ext g).exit_transition := by
  have hlen : h.models.length = g.models.length := by
    have := congrArg List.length hk
    simpa [StdMap.keys] using this
  have e : ∀ (l l2 : List (Label × SingleClassHMM)) (c : ℚ),
      l.foldl (fun (st : StdMap ℚ × StdMap (StdMap ℚ)) srcModel =>
          (StdMap.assign st.1 srcModel.1 ext.DEFAULT_EXITTRANSITION,
           l2.foldl (fun t dstModel => assign2 t srcModel.1 dstModel.1 c) st.2))
          (([] : StdMap ℚ), ([] : StdMap (StdMap ℚ)))
        = (l.map Prod.fst).foldl (fun (st : StdMap ℚ × StdMap (StdMap ℚ)) src =>
          (StdMap.assign st.1 src ext.DEFAULT_EXITTRANSITION,
           (l2.map Prod.fst).foldl (fun t dst => assign2 t src dst c) st.2)) ([], []) := by
    intro l l2 c
    rw [List.foldl_map]
    simp only [List.foldl_map]
  simp only [updateTransition, HierarchicalHMM.size, e, hlen]
  simp only [StdMap.keys] at hk
  rw [hk]
  exact ⟨rfl, rfl⟩

theorem updatePrior_prior_of_WF (h : HierarchicalHMM) (hwf : StdMap.WF h.models) :
    (updatePrior h).prior = h.models.map (fun p => (p.1, 1 / (h.size : ℚ))) := by
  simp only [updatePrior]
  have := StdMap.foldl_assign_of_sorted (fun _ : Label × SingleClassHMM => 1 / (h.size : ℚ))
    h.models [] (by simpa [StdMap.keys, StdMap.WF] using hwf)
  simpa using this

/-- C4 (amended). When the classes are the keys of a well-formed map, `label` is
not one of them, and Prior and Transition are the default tables derived for
these classes, then `addModelForClass(label)` followed by `removeClass(label)`
succeeds and leaves Prior and Transition as they were before the addition. -/
theorem add_then_remove_restores_defaults (ext : Collaborators) (h : HierarchicalHMM)
    (label : Label) (hwf : StdMap.WF h.models) (hnew : label ∉ StdMap.keys h.models)
    (hprior : h.prior = (updatePrior h).prior)
    (htrans : h.transition = (updateTransition ext h).transition) :
    ∃ h2, addThenRemove ext h label = .ok h2
      ∧ h2.prior = h.prior ∧ h2.transition = h.transition := by
  have hfind : StdMap.find h.models label = none := (StdMap.find_eq_none_iff _ _).2 hnew
  have hlenP : h.prior.length = h.models.length := by
    rw [hprior, updatePrior_prior_of_WF h hwf]; simp
  -- the hierarchy after the base-class insertion
  obtain ⟨h', hh'⟩ : ∃ h' : HierarchicalHMM, h' =
      { h with toModel := { h.toModel with
          models := StdMap.assign h.models label ext.newModel } } := ⟨_, rfl⟩
  have hm' : h'.models = StdMap.assign h.models label ext.newModel := by rw [hh']
  have hp' : h'.prior = h.prior := by rw [hh']
  have hlen' : h'.models.length = h.models.length + 1 := by
    rw [hm']; exact StdMap.length_assign_of_not_mem _ _ _ hfind
  have hwf' : StdMap.WF h'.models := by rw [hm']; exact StdMap.WF_assign _ _ _ hwf
  have hadd : addModelForClass ext h label
      = .ok (updateExitProbabilities ext (updateTransition ext (updatePrior h'))) := by
    have hne : ¬ h'.size = h'.prior.length := by
      simp only [HierarchicalHMM.size, hp', hlenP, hlen']; omega
    simp only [addModelForClass, Model.addModelForClass, hfind, Option.isSome_none]
    simp only [Bool.false_eq_true, if_false]
    rw [← hh']
    simp only [updateTransitionParameters, hne, if_false]
  obtain ⟨h1, hh1⟩ : ∃ h1 : HierarchicalHMM,
      h1 = updateExitProbabilities ext (updateTransition ext (updatePrior h')) := ⟨_, rfl⟩
  have hm1 : h1.models = h'.models.map (fun p => (p.1, ext.updateExitProbabilities p.2)) := by
    rw [hh1]; rfl
  have hp1 : h1.prior = (updatePrior h').prior := by rw [hh1]; rfl
  have hfind1 : (StdMap.find h1.models label).isSome = true := by
    rw [hm1, StdMap.find_map_val, hm', StdMap.find_assign_self]; rfl
  obtain ⟨h1', hh1'⟩ : ∃ h1' : HierarchicalHMM, h1' =
      { h1 with toModel := { h1.toModel with models := StdMap.erase h1.models label } } :=
    ⟨_, rfl⟩
  have hm1' : h1'.models = h.models.map (fun p => (p.1, ext.updateExitProbabilities p.2)) := by
    rw [hh1']
    show StdMap.erase h1.models label = _
    rw [hm1, StdMap.erase_map_val, hm', StdMap.erase_assign_of_not_mem _ _ _ hfind]
  have hk1' : StdMap.keys h1'.models = StdMap.keys h.models := by
    rw [hm1']; simp [StdMap.keys, List.map_map, Function.comp]
  have hp1' : h1'.prior = (updatePrior h').prior := by rw [hh1']; exact hp1
  have hrem : removeClass ext h1 label
      = .ok (updateExitProbabilities ext (updateTransition ext (updatePrior h1'))) := by
    have hne : ¬ h1'.size = h1'.prior.length := by
      simp only [HierarchicalHMM.size, hp1', updatePrior_prior_of_WF h' hwf', hm1',
        List.length_map, hlen']
      omega
    simp only [removeClass, Model.removeClass, hfind1, if_true]
    rw [← hh1']
    simp only [updateTransitionParameters, hne, if_false]
  refine ⟨updateExitProbabilities ext (updateTransition ext (updatePrior h1')), ?_, ?_, ?_⟩
  · simp only [addThenRemove, hadd]
    rw [← hh1]
    exact hrem
  · show (updatePrior h1').prior = h.prior
    rw [hprior]
    exact updatePrior_prior_congr _ _ hk1'
  · show (updateTransition ext (updatePrior h1')).transition = h.transition
    rw [htrans]
    exact (updateTransition_congr ext _ _ (by simpa [updatePrior] using hk1')).1

/-- Witness of C4 (amended): `hierAB` holds the default tables of "A" and "B";
the label "C" is added and removed. -/
theorem add_then_remove_restores_defaults_witness :
    ∃ h2, addThenRemove ext0 hierAB "C" = .ok h2
      ∧ h2.prior = hierAB.prior ∧ h2.transition = hierAB.transition :=
  add_then_remove_restores_defaults ext0 hierAB "C" (by decide!) (by decide!) (by decide!)
    (by decide!)

/-- C4 (counterexample). `hierCustom` has Prior 3/10, 7/10 and a non-uniform
Transition; adding and removing "C" succeeds and leaves the uniform tables, not
the values held before the addition. -/
theorem add_then_remove_discards_custom_weights :
    (addThenRemove ext0 hierCustom "C").toOption.map (fun h2 => (h2.prior, h2.transition))
      = some ([("A", 1 / 2), ("B", 1 / 2)],
          [("A", [("A", 1 / 2), ("B", 1 / 2)]), ("B", [("A", 1 / 2), ("B", 1 / 2)])])
    ∧ hierCustom.prior = [("A", 3 / 10), ("B", 7 / 10)]
    ∧ hierCustom.transition
      = [("A", [("A", 9 / 10), ("B", 1 / 10)]), ("B", [("A", 1 / 5), ("B", 4 / 5)])]
    ∧ "C" ∉ StdMap.keys hierCustom.models := by
  refine ⟨by decide!, rfl, rfl, by decide!⟩

/-! ## Serializer -/

theorem jsonWrite_at_end {α : Type} (done rest : List (Option α)) (v : α) :
    jsonWrite (done ++ rest) done.length v = (done ++ [some v]) ++ rest.drop 1 := by
  cases rest with
  | nil => simp [jsonWrite]
  | cons r rs => simp [jsonWrite]

theorem foldl_jsonWrite_enumFrom {α β : Type} (f : β → α) (es : List β)
    (done rest : List (Option α)) :
    (es.enumFrom done.length).foldl (fun a ip => jsonWrite a ip.1 (f ip.2)) (done ++ rest)
      = done ++ es.map (fun e => some (f e)) ++ rest.drop es.length := by
  induction es generalizing done rest with
  | nil => simp
  | cons e t ih =>
    rw [List.enumFrom_cons, List.foldl_cons]
    simp only []
    rw [jsonWrite_at_end]
    have := ih (done ++ [some (f e)]) (rest.drop 1)
    simp only [List.length_append, List.length_singleton] at this
    rw [this]
    simp [List.drop_drop, Nat.add_comm]

theorem toJson_list_eq (m : StdMap ℚ) (a : List (Option LabelProbability)) :
    toJson_list m a = m.map (fun p => some ⟨p.1, p.2⟩) ++ a.drop m.length := by
  have := foldl_jsonWrite_enumFrom (fun p : Label × ℚ => (⟨p.1, p.2⟩ : LabelProbability)) m [] a
  simpa [toJson_list, List.enum] using this

theorem foldl_jsonWrite_counter {α β : Type} (f : β → α) (es : List β)
    (done rest : List (Option α)) :
    es.foldl (fun (st : List (Option α) × ℕ) e => (jsonWrite st.1 st.2 (f e), st.2 + 1))
        (done ++ rest, done.length)
      = (done ++ es.map (fun e => some (f e)) ++ rest.drop es.length,
         done.length + es.length) := by
  induction es generalizing done rest with
  | nil => simp
  | cons e t ih =>
    rw [List.foldl_cons]
    simp only []
    rw [jsonWrite_at_end]
    have := ih (done ++ [some (f e)]) (rest.drop 1)
    simp only [List.length_append, List.length_singleton] at this
    rw [this]
    simp [List.drop_drop, Nat.add_comm, Nat.add_assoc, Nat.add_left_comm]

theorem toJson_transition_aux (t : StdMap (StdMap ℚ))
    (done rest : List (Option TransitionRecord)) :
    t.foldl
        (fun st srcit => srcit.2.foldl
          (fun st dstit => (jsonWrite st.1 st.2 ⟨srcit.1, dstit.1, dstit.2⟩, st.2 + 1)) st)
        (done ++ rest, done.length)
      = (done ++ (transitionRecords t).map some ++ rest.drop (transitionRecords t).length,
         done.length + (transitionRecords t).length) := by
  induction t generalizing done rest with
  | nil => simp [transitionRecords]
  | cons r rows ih =>
    rw [List.foldl_cons]
    have h1 := foldl_jsonWrite_counter
      (fun p : Label × ℚ => (⟨r.1, p.1, p.2⟩ : TransitionRecord)) r.2 done rest
    simp only [] at h1 ⊢
    rw [h1]
    have h2 := ih (done ++ r.2.map (fun e => some (⟨r.1, e.1, e.2⟩ : TransitionRecord)))
      (rest.drop r.2.length)
    simp only [List.length_append, List.length_map] at h2
    rw [h2]
    simp [transitionRecords, List.drop_drop, Nat.add_comm, Nat.add_assoc, Nat.add_left_comm,
      List.map_map, Function.comp]

theorem toJson_transition_eq (t : StdMap (StdMap ℚ)) (a : List (Option TransitionRecord)) :
    (toJson_transition t a).1
      = (transitionRecords t).map some ++ a.drop (transitionRecords t).length := by
  have := toJson_transition_aux t [] a
  simp only [List.nil_append, List.length_nil, Nat.zero_add] at this
  simp only [toJson_transition]
  rw [this]


theorem decodeList_map_some (m : StdMap ℚ) (hwf : StdMap.WF m) :
    decodeList (m.map (fun p => some ⟨p.1, p.2⟩)) = m := by
  simp only [decodeList, List.foldl_map, LabelProbability.labelOf,
    LabelProbability.probabilityOf]
  have := StdMap.foldl_assign_of_sorted (fun p : Label × ℚ => p.2) m []
    (by simpa [StdMap.keys, StdMap.WF] using hwf)
  simpa using this

namespace StdMap
variable {V : Type}

theorem find_append_last (acc : StdMap V) (s : Label) (r : V) (hs : s ∉ keys acc) :
    find (acc ++ [(s, r)]) s = some r := by
  induction acc with
  | nil => simp [find]
  | cons p t ih =>
    obtain ⟨k', v'⟩ := p
    have h1 : ¬ k' = s := fun e => hs (by simp [keys, e])
    have h2 : s ∉ keys t := fun e => hs (by simp only [keys, List.map_cons, List.mem_cons] at e ⊢; exact Or.inr e)
    simp [find, h1, ih h2]

theorem assign_append_last (acc : StdMap V) (s : Label) (r r' : V)
    (hlt : ∀ x ∈ keys acc, x < s) : assign (acc ++ [(s, r)]) s r' = acc ++ [(s, r')] := by
  induction acc with
  | nil => simp [assign]
  | cons p t ih =>
    obtain ⟨k', v'⟩ := p
    have h1 : k' < s := hlt k' (by simp [keys])
    have h2 : ¬ s < k' := lt_asymm h1
    have h3 : ¬ s = k' := fun e => (lt_irrefl k') (e ▸ h1)
    have ht : ∀ x ∈ keys t, x < s := fun x hx => hlt x (by simp [keys] at hx ⊢; exact Or.inr hx)
    simp [assign, h2, h3, ih ht]

end StdMap

theorem assign2_new_row (acc : StdMap (StdMap ℚ)) (s d : Label) (v : ℚ)
    (hlt : ∀ x ∈ StdMap.keys acc, x < s) :
    assign2 acc s d v = acc ++ [(s, [(d, v)])] := by
  have hs : StdMap.find acc s = none :=
    (StdMap.find_eq_none_iff _ _).2 (fun hx => lt_irrefl s (hlt s hx))
  simp only [assign2, StdMap.read, hs, Option.getD_none]
  rw [StdMap.assign_of_forall_lt acc s _ hlt]
  rfl

theorem assign2_last_row (acc : StdMap (StdMap ℚ)) (s d : Label) (v : ℚ) (done : StdMap ℚ)
    (hlt : ∀ x ∈ StdMap.keys acc, x < s) (hd : ∀ x ∈ StdMap.keys done, x < d) :
    assign2 (acc ++ [(s, done)]) s d v = acc ++ [(s, done ++ [(d, v)])] := by
  have hs : s ∉ StdMap.keys acc := fun hx => lt_irrefl s (hlt s hx)
  simp only [assign2, StdMap.read, StdMap.find_append_last acc s done hs, Option.getD_some]
  rw [StdMap.assign_of_forall_lt done d v hd, StdMap.assign_append_last acc s _ _ hlt]

theorem foldl_assign2_last_row (acc : StdMap (StdMap ℚ)) (s : Label) (done rest : StdMap ℚ)
    (hlt : ∀ x ∈ StdMap.keys acc, x < s)
    (hs : (StdMap.keys done ++ StdMap.keys rest).Pairwise (fun a b => a < b)) :
    rest.foldl (fun t p => assign2 t s p.1 p.2) (acc ++ [(s, done)])
      = acc ++ [(s, done ++ rest)] := by
  induction rest generalizing done with
  | nil => simp
  | cons x t ih =>
    have hd : ∀ y ∈ StdMap.keys done, y < x.1 := by
      intro y hy
      rw [List.pairwise_append] at hs
      exact hs.2.2 y hy x.1 (by simp [StdMap.keys])
    rw [List.foldl_cons, assign2_last_row acc s x.1 x.2 done hlt hd, ih]
    · simp
    · simpa [StdMap.keys] using hs

theorem foldl_assign2_row (acc : StdMap (StdMap ℚ)) (s : Label) (row : StdMap ℚ)
    (hlt : ∀ x ∈ StdMap.keys acc, x < s) (hrow : StdMap.WF row) (hne : row ≠ []) :
    row.foldl (fun t p => assign2 t s p.1 p.2) acc = acc ++ [(s, row)] := by
  cases row with
  | nil => exact absurd rfl hne
  | cons x t =>
    rw [List.foldl_cons, assign2_new_row acc s x.1 x.2 hlt,
      foldl_assign2_last_row acc s [(x.1, x.2)] t hlt (by simpa [StdMap.keys, StdMap.WF] using hrow)]
    rfl

theorem foldl_assign2_rows (rows acc : StdMap (StdMap ℚ))
    (hs : (StdMap.keys acc ++ StdMap.keys rows).Pairwise (fun a b => a < b))
    (hrows : ∀ r ∈ rows, StdMap.WF r.2 ∧ r.2 ≠ []) :
    rows.foldl (fun t r => r.2.foldl (fun t p => assign2 t r.1 p.1 p.2) t) acc
      = acc ++ rows := by
  induction rows generalizing acc with
  | nil => simp
  | cons r rest ih =>
    have hlt : ∀ y ∈ StdMap.keys acc, y < r.1 := by
      intro y hy
      rw [List.pairwise_append] at hs
      exact hs.2.2 y hy r.1 (by simp [StdMap.keys])
    have hr := hrows r (List.mem_cons_self _ _)
    rw [List.foldl_cons, foldl_assign2_row acc r.1 r.2 hlt hr.1 hr.2, ih]
    · simp
    · simpa [StdMap.keys] using hs
    · intro r' hr'
      exact hrows r' (List.mem_cons_of_mem _ hr')

theorem decodeTransition_records (t : StdMap (StdMap ℚ)) (acc : StdMap (StdMap ℚ)) :
    (transitionRecords t).foldl
        (fun t p => assign2 t p.srcLabel p.dstLabel p.probability) acc
      = t.foldl (fun t r => r.2.foldl (fun t p => assign2 t r.1 p.1 p.2) t) acc := by
  induction t generalizing acc with
  | nil => simp [transitionRecords]
  | cons r rest ih =>
    have : transitionRecords (r :: rest)
        = r.2.map (fun p => (⟨r.1, p.1, p.2⟩ : TransitionRecord)) ++ transitionRecords rest := by
      simp [transitionRecords]
    rw [this, List.foldl_append, List.foldl_map, List.foldl_cons, ih]

theorem decodeTransition_map_some (t : StdMap (StdMap ℚ)) (hwf : StdMap.WF t)
    (hrows : ∀ r ∈ t, StdMap.WF r.2 ∧ r.2 ≠ []) :
    decodeTransition ((transitionRecords t).map some) = t := by
  simp only [decodeTransition, List.foldl_map, TransitionRecord.srcOf, TransitionRecord.dstOf,
    TransitionRecord.probabilityOf]
  rw [decodeTransition_records, foldl_assign2_rows t [] (by simpa [StdMap.keys, StdMap.WF] using hwf) hrows]
  simp

theorem length_transitionRecords (t : StdMap (StdMap ℚ)) (n : ℕ)
    (hrows : ∀ r ∈ t, r.2.length = n) : (transitionRecords t).length = t.length * n := by
  induction t with
  | nil => simp [transitionRecords]
  | cons r rest ih =>
    have : transitionRecords (r :: rest)
        = r.2.map (fun p => (⟨r.1, p.1, p.2⟩ : TransitionRecord)) ++ transitionRecords rest := by
      simp [transitionRecords]
    rw [this, List.length_append, List.length_map, ih (fun r' hr' => hrows r' (List.mem_cons_of_mem _ hr')),
      hrows r (List.mem_cons_self _ _), List.length_cons]
    ring


theorem length_jsonResize {α : Type} (a : List (Option α)) (n : ℕ) :
    (jsonResize a n).length = n := by
  simp only [jsonResize, List.length_append, List.length_take, List.length_replicate]
  omega

theorem drop_jsonResize {α : Type} (a : List (Option α)) (n k : ℕ) (hk : n ≤ k) :
    (jsonResize a n).drop k = [] := by
  apply List.drop_eq_nil_of_le
  rw [length_jsonResize]
  exact hk

theorem length_eq_of_keys_eq {V W : Type} (m : StdMap V) (m' : StdMap W)
    (hk : StdMap.keys m = StdMap.keys m') : m.length = m'.length := by
  have := congrArg List.length hk
  simpa [StdMap.keys] using this

/-- C5. Serialization round trip: when the training check passes, the classes
form a well-formed map, the keys of Prior and of Exit-transition are the class
labels and Transition has one row per class label with one entry per class
label, `toJson` returns a document whose three lists decode to the original
Prior, Transition and Exit-transition, and `fromJson` of that document stores
exactly these mappings in any target whose check passes and whose base-class
part decodes. -/
theorem toJson_fromJson_roundtrip (ext : Collaborators) (h : HierarchicalHMM)
    (hcheck : ext.checkTraining h = .ok ())
    (hwf : StdMap.WF h.models)
    (hpk : StdMap.keys h.prior = StdMap.keys h.models)
    (hek : StdMap.keys h.exit_transition = StdMap.keys h.models)
    (htk : StdMap.keys h.transition = StdMap.keys h.models)
    (hrk : ∀ r ∈ h.transition, StdMap.keys r.2 = StdMap.keys h.models) :
    ∃ root, toJson ext h = .ok root
      ∧ decodeList root.prior = h.prior
      ∧ decodeTransition root.transition = h.transition
      ∧ decodeList root.exit_transition = h.exit_transition
      ∧ ∀ target base, ext.checkTraining target = .ok () →
          ext.Model_ctor_Json root = .ok base →
          ∃ h2, fromJson ext target root = .ok h2 ∧ h2.prior = h.prior
            ∧ h2.transition = h.transition ∧ h2.exit_transition = h.exit_transition := by
  have hpwf : StdMap.WF h.prior := by unfold StdMap.WF at hwf ⊢; rw [hpk]; exact hwf
  have hewf : StdMap.WF h.exit_transition := by unfold StdMap.WF at hwf ⊢; rw [hek]; exact hwf
  have htwf : StdMap.WF h.transition := by unfold StdMap.WF at hwf ⊢; rw [htk]; exact hwf
  have hrows : ∀ r ∈ h.transition, StdMap.WF r.2 ∧ r.2 ≠ [] := by
    intro r hr
    refine ⟨by unfold StdMap.WF at hwf ⊢; rw [hrk r hr]; exact hwf, ?_⟩
    intro he
    have h1 : StdMap.keys h.models = [] := by rw [← hrk r hr, he]; rfl
    have h2 : h.transition.length = 0 := by
      rw [length_eq_of_keys_eq h.transition h.models htk]
      simpa [StdMap.keys] using h1
    rw [List.length_eq_zero] at h2
    rw [h2] at hr
    exact absurd hr (List.not_mem_nil _)
  have hpl : h.prior.length = h.size := length_eq_of_keys_eq _ _ hpk
  have hel : h.exit_transition.length = h.size := length_eq_of_keys_eq _ _ hek
  have htl : (transitionRecords h.transition).length = h.size * h.size := by
    rw [length_transitionRecords h.transition h.size
      (fun r hr => length_eq_of_keys_eq _ _ (hrk r hr))]
    rw [length_eq_of_keys_eq _ _ htk]
    rfl
  have e1 : decodeList (toJson_list h.prior
      (jsonResize (ext.Model_toJson h.toModel).prior (h.size % 2 ^ 32))) = h.prior := by
    rw [toJson_list_eq, drop_jsonResize _ _ _ (by rw [hpl]; exact Nat.mod_le _ _),
      List.append_nil, decodeList_map_some _ hpwf]
  have e2 : decodeTransition (toJson_transition h.transition
      (jsonResize (ext.Model_toJson h.toModel).transition ((h.size * h.size) % 2 ^ 32))).1
        = h.transition := by
    rw [toJson_transition_eq, drop_jsonResize _ _ _ (by rw [htl]; exact Nat.mod_le _ _),
      List.append_nil, decodeTransition_map_some _ htwf hrows]
  have e3 : decodeList (toJson_list h.exit_transition
      (jsonResize (ext.Model_toJson h.toModel).exit_transition (h.size % 2 ^ 32)))
        = h.exit_transition := by
    rw [toJson_list_eq, drop_jsonResize _ _ _ (by rw [hel]; exact Nat.mod_le _ _),
      List.append_nil, decodeList_map_some _ hewf]
  refine ⟨_, by simp only [toJson, hcheck]; rfl, e1, e2, e3, ?_⟩
  intro target base hct hbase
  refine ⟨_, by simp only [fromJson, hct, HierarchicalHMM.ctor_Json, hbase]; rfl, ?_, ?_, ?_⟩
  · exact e1
  · exact e2
  · exact e3

/-- Witness of C5: the hierarchy `hierCustom` with non-uniform tables. -/
theorem toJson_fromJson_roundtrip_witness :
    ∃ root, toJson ext0 hierCustom = .ok root
      ∧ decodeList root.prior = hierCustom.prior
      ∧ decodeTransition root.transition = hierCustom.transition
      ∧ decodeList root.exit_transition = hierCustom.exit_transition
      ∧ ∃ h2, fromJson ext0 hierAB root = .ok h2 ∧ h2.prior = hierCustom.prior
          ∧ h2.transition = hierCustom.transition
          ∧ h2.exit_transition = hierCustom.exit_transition :=
  match toJson_fromJson_roundtrip ext0 hierCustom rfl (by decide!) (by decide!) (by decide!)
      (by decide!) (by decide!) with
  | ⟨root, h1, h2, h3, h4, h5⟩ => ⟨root, h1, h2, h3, h4, h5 hierAB _ rfl rfl⟩

/-! ## Loading a document -/

theorem hasEntry_assign2_self (t : StdMap (StdMap ℚ)) (s d : Label) (v : ℚ) :
    hasEntry (assign2 t s d v) s d = true := by
  simp [hasEntry, assign2, StdMap.find_assign_self]

theorem hasEntry_assign2_of_hasEntry (t : StdMap (StdMap ℚ)) (s d s0 d0 : Label) (v : ℚ)
    (h0 : hasEntry t s0 d0 = true) : hasEntry (assign2 t s d v) s0 d0 = true := by
  by_cases h1 : s0 = s
  · subst h1
    by_cases h2 : d0 = d
    · subst h2
      exact hasEntry_assign2_self t s0 d0 v
    · cases hf : StdMap.find t s0 with
      | none => simp [hasEntry, hf] at h0
      | some row =>
        have h0' : (StdMap.find row d0).isSome = true := by
          simpa [hasEntry, hf] using h0
        simp [hasEntry, assign2, StdMap.find_assign_self, StdMap.read, hf,
          StdMap.find_assign_ne _ _ _ _ h2, h0']
  · simpa [hasEntry, assign2, StdMap.find_assign_ne _ _ _ _ h1] using h0

theorem hasEntry_foldl_assign2 (l : List (Option TransitionRecord)) (acc : StdMap (StdMap ℚ))
    (s0 d0 : Label)
    (h0 : hasEntry acc s0 d0 = true ∨ ∃ r, some r ∈ l ∧ r.srcLabel = s0 ∧ r.dstLabel = d0) :
    hasEntry (l.foldl (fun t p =>
      assign2 t (TransitionRecord.srcOf p) (TransitionRecord.dstOf p)
        (TransitionRecord.probabilityOf p)) acc) s0 d0 = true := by
  induction l generalizing acc with
  | nil =>
    rcases h0 with h0 | ⟨r, hr, _⟩
    · exact h0
    · exact absurd hr (List.not_mem_nil _)
  | cons x t ih =>
    rw [List.foldl_cons]
    apply ih
    rcases h0 with h0 | ⟨r, hr, hs, hd⟩
    · exact Or.inl (hasEntry_assign2_of_hasEntry _ _ _ _ _ _ h0)
    · rcases List.mem_cons.1 hr with hx | hx
      · subst hx
        left
        rw [← hs, ← hd]
        exact hasEntry_assign2_self _ _ _ _
      · exact Or.inr ⟨r, hx, hs, hd⟩

/-- C6 (amended). When the training check passes, `fromJson` does not validate
the labels of the `transition` list: if the base-class constructor decodes the
document, the load succeeds, the classes are those restored by the base class,
and Transition is replaced by the table decoded from the list, which holds an
entry for the pair of labels of every record; if the base-class constructor
throws, `fromJson` fails with that exception and produces no new state. -/
theorem fromJson_stores_every_transition_record (ext : Collaborators) (h : HierarchicalHMM)
    (root : Json) (hcheck : ext.checkTraining h = .ok ()) :
    (∀ base, ext.Model_ctor_Json root = .ok base →
      ∃ h2, fromJson ext h root = .ok h2 ∧ h2.models = base.models
        ∧ h2.transition = decodeTransition root.transition
        ∧ ∀ r, some r ∈ root.transition → hasEntry h2.transition r.srcLabel r.dstLabel = true)
    ∧ (∀ e, ext.Model_ctor_Json root = .error e → fromJson ext h root = .error e) := by
  constructor
  · intro base hbase
    refine ⟨_, by simp only [fromJson, hcheck, HierarchicalHMM.ctor_Json, hbase]; rfl,
      rfl, rfl, ?_⟩
    intro r hr
    exact hasEntry_foldl_assign2 _ _ _ _ (Or.inr ⟨r, hr, rfl, rfl⟩)
  · intro e he
    simp only [fromJson, hcheck, HierarchicalHMM.ctor_Json, he]

/-- Witness of C6 (amended): the document `docZ` loaded into `hierAB`. -/
theorem fromJson_stores_every_transition_record_witness :
    ∃ h2, fromJson ext0 hierAB docZ = .ok h2 ∧ h2.models = [("A", classA), ("B", classB)]
      ∧ h2.transition = decodeTransition docZ.transition
      ∧ ∀ r, some r ∈ docZ.transition → hasEntry h2.transition r.srcLabel r.dstLabel = true :=
  (fromJson_stores_every_transition_record ext0 hierAB docZ rfl).1 _ rfl

/-- C6 (counterexample). The `transition` list of `docZ` names the destination
"Z", which is not a class of `hierAB` (nor of the restored classes "A", "B");
`fromJson` succeeds and the Transition table becomes `A -> Z : 1`, so it is
neither rejected nor left unchanged. -/
theorem fromJson_accepts_unknown_label :
    (fromJson ext0 hierAB docZ).toOption.map (fun h2 => (StdMap.keys h2.models, h2.transition))
      = some (["A", "B"], [("A", [("Z", 1)])])
    ∧ "Z" ∉ StdMap.keys hierAB.models
    ∧ hierAB.transition
      = [("A", [("A", 1 / 2), ("B", 1 / 2)]), ("B", [("A", 1 / 2), ("B", 1 / 2)])] := by
  refine ⟨by decide!, by decide!, rfl⟩

/-! ## Degenerate frame -/

/-- C7 (code defect). On `hierSilent` every emission probability is 0, so the
normalization constant of the frame is 0.  `forward_update` reports nothing (it
returns normally) and runs the loop `alpha_h[e][k] /= norm_const` all the same:
the forward arrays are overwritten (the continue arrays `[1/4, 1/8]` of the
previous frame are gone) with the quotients `0 / 0`, which is 0 in the rationals
of the embedding and NaN in IEEE-754 arithmetic. -/
theorem forward_update_divides_by_zero_norm_const :
    forward_update_norm_const hierSilent [] = 0
    ∧ (forward_update ext0 hierSilent []).toOption.isSome = true
    ∧ hierSilent.models.map (fun p => p.2.alpha_h0) = [[1 / 4, 1 / 8], [1 / 4, 1 / 8]]
    ∧ (forward_update ext0 hierSilent []).toOption.map
        (fun h' => h'.models.map (fun p => (p.2.alpha_h0, p.2.alpha_h1, p.2.alpha_h2)))
      = some [([0 / 0, 0 / 0], [0 / 0, 0 / 0], [0 / 0, 0 / 0]),
              ([0 / 0, 0 / 0], [0 / 0, 0 / 0], [0 / 0, 0 / 0])] := by
  refine ⟨by decide!, by decide!, by decide!, by decide!⟩

/-! ## Result aggregator -/

theorem updateResults_step_sums (ext : Collaborators) (l : List (Label × SingleClassHMM))
    (n : ℕ) (st : ℚ × ℚ × ℚ × Label) :
    ((l.enumFrom n).foldl (updateResults_step ext) st).2.1
        = st.2.1 + (l.map (fun p => p.2.results.instant_likelihood)).sum
    ∧ ((l.enumFrom n).foldl (updateResults_step ext) st).2.2.1
        = st.2.2.1 + (l.map (fun p => ext.exp p.2.results.log_likelihood)).sum := by
  induction l generalizing n st with
  | nil => simp
  | cons x t ih =>
    rw [List.enumFrom_cons, List.foldl_cons]
    have h1 : (updateResults_step ext st (n, x)).2.1
        = st.2.1 + x.2.results.instant_likelihood := by
      simp only [updateResults_step]; split <;> rfl
    have h2 : (updateResults_step ext st (n, x)).2.2.1
        = st.2.2.1 + ext.exp x.2.results.log_likelihood := by
      simp only [updateResults_step]; split <;> rfl
    rw [(ih (n + 1) _).1, (ih (n + 1) _).2, h1, h2]
    simp [add_assoc]

theorem normconst_instant_eq (ext : Collaborators) (h : HierarchicalHMM) :
    normconst_instant ext h = (h.models.map (fun p => p.2.results.instant_likelihood)).sum := by
  have := (updateResults_step_sums ext h.models 0 (0, 0, 0, h.results.likeliest)).1
  simpa [normconst_instant, updateResults_scalars, List.enum] using this

theorem normconst_smoothed_eq (ext : Collaborators) (h : HierarchicalHMM) :
    normconst_smoothed ext h
      = (h.models.map (fun p => ext.exp p.2.results.log_likelihood)).sum := by
  have := (updateResults_step_sums ext h.models 0 (0, 0, 0, h.results.likeliest)).2
  simpa [normconst_smoothed, updateResults_scalars, List.enum] using this

theorem updateResults_likeliest_aux (ext : Collaborators) (l : List (Label × SingleClassHMM))
    (st0 : ℚ × ℚ × ℚ × Label) (hne : l ≠ []) :
    ∃ pre c post, l = pre ++ c :: post
      ∧ (l.enum.foldl (updateResults_step ext) st0).2.2.2 = c.1
      ∧ (l.enum.foldl (updateResults_step ext) st0).1 = c.2.results.log_likelihood
      ∧ (∀ p ∈ pre, p.2.results.log_likelihood < c.2.results.log_likelihood)
      ∧ (∀ p ∈ post, p.2.results.log_likelihood ≤ c.2.results.log_likelihood) := by
  induction l using List.reverseRecOn with
  | nil => exact absurd rfl hne
  | append_singleton l x ih =>
    rw [List.enum_append, List.foldl_append]
    simp only [List.enumFrom_singleton, List.foldl_cons, List.foldl_nil]
    by_cases hl : l = []
    · subst hl
      refine ⟨[], x, [], by simp, ?_, ?_, by simp, by simp⟩
      · simp [updateResults_step]
      · simp [updateResults_step]
    · obtain ⟨pre, c, post, hdec, hlab, hmax, hpre, hpost⟩ := ih hl
      have hlen : l.length ≠ 0 := fun e => hl (List.length_eq_zero.1 e)
      by_cases hgt : x.2.results.log_likelihood > c.2.results.log_likelihood
      · refine ⟨l, x, [], by simp, ?_, ?_, ?_, by simp⟩
        · simp [updateResults_step, hmax, hgt]
        · simp [updateResults_step, hmax, hgt]
        · intro p hp
          rw [hdec] at hp
          rcases List.mem_append.1 hp with hp | hp
          · exact lt_trans (hpre p hp) hgt
          · rcases List.mem_cons.1 hp with hp | hp
            · rw [hp]; exact hgt
            · exact lt_of_le_of_lt (hpost p hp) hgt
      · refine ⟨pre, c, post ++ [x], by simp [hdec], ?_, ?_, hpre, ?_⟩
        · simp [updateResults_step, hmax, hgt, hlen, hlab]
        · simp [updateResults_step, hmax, hgt, hlen]
        · intro p hp
          rcases List.mem_append.1 hp with hp | hp
          · exact hpost p hp
          · rw [List.mem_singleton.1 hp]; exact not_lt.1 hgt

/-- C8. After `updateResults` on a hierarchy with at least one class,
`results.likeliest` is the label of a class `c` such that every class before
`c` in iteration order has a strictly smaller smoothed log-likelihood and every
class after `c` has a smaller or equal one: `c` is the first class that attains
the maximum, whatever the signs of the log-likelihoods. -/
theorem updateResults_likeliest_is_first_maximum (ext : Collaborators) (h : HierarchicalHMM)
    (hne : h.models ≠ []) :
    ∃ pre c post, h.models = pre ++ c :: post
      ∧ (updateResults ext h).results.likeliest = c.1
      ∧ (∀ p ∈ pre, p.2.results.log_likelihood < c.2.results.log_likelihood)
      ∧ (∀ p ∈ post, p.2.results.log_likelihood ≤ c.2.results.log_likelihood) := by
  obtain ⟨pre, c, post, hdec, hlab, _, hpre, hpost⟩ :=
    updateResults_likeliest_aux ext h.models (0, 0, 0, h.results.likeliest) hne
  exact ⟨pre, c, post, hdec, hlab, hpre, hpost⟩

/-- Witness of C8: in `hierAB` both smoothed log-likelihoods are negative
(-1 and -2) and the likeliest class is "A". -/
theorem updateResults_likeliest_is_first_maximum_witness :
    (updateResults ext0 hierAB).results.likeliest = "A"
    ∧ ∃ pre c post, hierAB.models = pre ++ c :: post
      ∧ (updateResults ext0 hierAB).results.likeliest = c.1
      ∧ (∀ p ∈ pre, p.2.results.log_likelihood < c.2.results.log_likelihood)
      ∧ (∀ p ∈ post, p.2.results.log_likelihood ≤ c.2.results.log_likelihood) :=
  ⟨by decide!, updateResults_likeliest_is_first_maximum ext0 hierAB (by simp [hierAB])⟩

theorem take_writeFirst (vals v : List ℚ) : (writeFirst vals v).take vals.length = vals := by
  simp [writeFirst]

/-- C9 (amended). After `updateResults`: when the sum over the classes of the
instantaneous likelihoods is non-zero, the normalized instantaneous likelihoods
of the classes are the instantaneous likelihoods divided by that sum and sum to
1; when the sum over the classes of the exponentials of the smoothed
log-likelihoods (the divisor `normconst_smoothed`) is non-zero, the normalized
smoothed likelihoods are these exponentials divided by their sum and sum to
1. -/
theorem updateResults_normalized_likelihoods (ext : Collaborators) (h : HierarchicalHMM) :
    ((h.models.map (fun p => p.2.results.instant_likelihood)).sum ≠ 0 →
      (updateResults ext h).results.instant_normalized_likelihoods.take h.size
          = h.models.map (fun p => p.2.results.instant_likelihood
              / (h.models.map (fun p => p.2.results.instant_likelihood)).sum)
      ∧ ((updateResults ext h).results.instant_normalized_likelihoods.take h.size).sum = 1)
    ∧ ((h.models.map (fun p => ext.exp p.2.results.log_likelihood)).sum ≠ 0 →
      (updateResults ext h).results.smoothed_normalized_likelihoods.take h.size
          = h.models.map (fun p => ext.exp p.2.results.log_likelihood
              / (h.models.map (fun p => ext.exp p.2.results.log_likelihood)).sum)
      ∧ ((updateResults ext h).results.smoothed_normalized_likelihoods.take h.size).sum
          = 1) := by
  have e1 : (updateResults ext h).results.instant_normalized_likelihoods.take h.size
      = h.models.map (fun p => p.2.results.instant_likelihood
          / (h.models.map (fun p => p.2.results.instant_likelihood)).sum) := by
    have := take_writeFirst
      ((h.models.map (fun model => model.2.results.instant_likelihood)).map
        (fun x => x / normconst_instant ext h)) h.results.instant_normalized_likelihoods
    simp only [List.length_map] at this
    simp only [updateResults, HierarchicalHMM.size]
    rw [show (updateResults_scalars ext h).2.1 = normconst_instant ext h from rfl, this,
      normconst_instant_eq, List.map_map]
    rfl
  have e2 : (updateResults ext h).results.smoothed_normalized_likelihoods.take h.size
      = h.models.map (fun p => ext.exp p.2.results.log_likelihood
          / (h.models.map (fun p => ext.exp p.2.results.log_likelihood)).sum) := by
    have := take_writeFirst
      (((h.models.map (fun model => model.2.results.log_likelihood)).map ext.exp).map
        (fun x => x / normconst_smoothed ext h)) h.results.smoothed_normalized_likelihoods
    simp only [List.length_map] at this
    simp only [updateResults, HierarchicalHMM.size]
    rw [show (updateResults_scalars ext h).2.2.1 = normconst_smoothed ext h from rfl, this,
      normconst_smoothed_eq, List.map_map, List.map_map]
    rfl
  refine ⟨fun hsum => ⟨e1, ?_⟩, fun hpos => ⟨e2, ?_⟩⟩
  · rw [e1]
    have := sum_map_div_const (h.models.map (fun p => p.2.results.instant_likelihood))
      ((h.models.map (fun p => p.2.results.instant_likelihood)).sum)
    rw [List.map_map] at this
    rw [show (fun p : Label × SingleClassHMM => p.2.results.instant_likelihood
          / (h.models.map (fun p => p.2.results.instant_likelihood)).sum)
        = (fun x => x / (h.models.map (fun p => p.2.results.instant_likelihood)).sum)
          ∘ (fun p : Label × SingleClassHMM => p.2.results.instant_likelihood) from rfl, this]
    exact div_self hsum
  · rw [e2]
    have := sum_map_div_const (h.models.map (fun p => ext.exp p.2.results.log_likelihood))
      ((h.models.map (fun p => ext.exp p.2.results.log_likelihood)).sum)
    rw [List.map_map] at this
    rw [show (fun p : Label × SingleClassHMM => ext.exp p.2.results.log_likelihood
          / (h.models.map (fun p => ext.exp p.2.results.log_likelihood)).sum)
        = (fun x => x / (h.models.map (fun p => ext.exp p.2.results.log_likelihood)).sum)
          ∘ (fun p : Label × SingleClassHMM => ext.exp p.2.results.log_likelihood) from rfl,
      this]
    exact div_self hpos

theorem ext0_exp_pos (x : ℚ) : 0 < ext0.exp x := by
  show (0 : ℚ) < (2 : ℚ) ^ ⌊x⌋
  positivity

/-- The divisor of the smoothed likelihoods is non-zero for a hierarchy with at
least one class when `exp` is positive at every smoothed log-likelihood. -/
theorem normconst_smoothed_ne_zero_of_exp_pos (ext : Collaborators) (h : HierarchicalHMM)
    (hne : h.models ≠ [])
    (hexp : ∀ p ∈ h.models, 0 < ext.exp p.2.results.log_likelihood) :
    (h.models.map (fun p => ext.exp p.2.results.log_likelihood)).sum ≠ 0 := by
  cases hm : h.models with
  | nil => exact absurd hm hne
  | cons x t =>
    rw [hm] at hexp
    have h1 : 0 ≤ (t.map (fun p => ext.exp p.2.results.log_likelihood)).sum :=
      List.sum_nonneg (by
        intro y hy
        obtain ⟨p, hp, rfl⟩ := List.mem_map.1 hy
        exact (hexp p (List.mem_cons_of_mem _ hp)).le)
    have h2 := hexp x (List.mem_cons_self _ _)
    simp only [List.map_cons, List.sum_cons]
    linarith

/-- Witness of C9: `hierAB`, whose classes have instantaneous likelihood 1/2
each and smoothed log-likelihoods -1 and -2, with exponentials 1/2 and 1/4. -/
theorem updateResults_normalized_likelihoods_witness :
    (hierAB.models.map (fun p => p.2.results.instant_likelihood)).sum = 1
    ∧ (hierAB.models.map (fun p => ext0.exp p.2.results.log_likelihood)).sum = 3 / 4
    ∧ ((updateResults ext0 hierAB).results.instant_normalized_likelihoods.take hierAB.size
          = hierAB.models.map (fun p => p.2.results.instant_likelihood
              / (hierAB.models.map (fun p => p.2.results.instant_likelihood)).sum)
        ∧ ((updateResults ext0 hierAB).results.instant_normalized_likelihoods.take
            hierAB.size).sum = 1)
    ∧ ((updateResults ext0 hierAB).results.smoothed_normalized_likelihoods.take hierAB.size
          = hierAB.models.map (fun p => ext0.exp p.2.results.log_likelihood
              / (hierAB.models.map (fun p => ext0.exp p.2.results.log_likelihood)).sum)
        ∧ ((updateResults ext0 hierAB).results.smoothed_normalized_likelihoods.take
            hierAB.size).sum = 1)
    ∧ (updateResults ext0 hierAB).results.smoothed_normalized_likelihoods = [2 / 3, 1 / 3] :=
  ⟨by decide!, by decide!,
   (updateResults_normalized_likelihoods ext0 hierAB).1 (by decide!),
   (updateResults_normalized_likelihoods ext0 hierAB).2 (by decide!),
   by decide!⟩

/-- C9 (counterexample). The classes of `hierFaint` have instantaneous
likelihoods 1/2 each, so their sum is 1 and not zero, and smoothed
log-likelihoods -1000 and -2000, whose exponentials underflow to 0: the divisor
`normconst_smoothed` is 0 and `updateResults` divides by it all the same.  The
normalized smoothed likelihoods are the quotients `0 / 0` (0 in the rationals
of the embedding, NaN in IEEE-754 arithmetic) and do not sum to 1, while the
normalized instantaneous likelihoods are 1/2 each. -/
theorem updateResults_smoothed_divides_by_zero :
    (hierFaint.models.map (fun p => p.2.results.instant_likelihood)).sum = 1
    ∧ hierFaint.models.map (fun p => extUnderflow.exp p.2.results.log_likelihood) = [0, 0]
    ∧ normconst_smoothed extUnderflow hierFaint = 0
    ∧ (updateResults extUnderflow hierFaint).results.instant_normalized_likelihoods
        = [1 / 2, 1 / 2]
    ∧ (updateResults extUnderflow hierFaint).results.smoothed_normalized_likelihoods = [0, 0]
    ∧ ((updateResults extUnderflow hierFaint).results.smoothed_normalized_likelihoods.take
        hierFaint.size).sum ≠ 1 := by
  refine ⟨by decide!, by decide!, by decide!, by decide!, by decide!, by decide!⟩

/-! ## Regression blending -/

theorem getD_map_range (D d : ℕ) (f : ℕ → ℚ) (hd : d < D) :
    ((List.range D).map f).getD d 0 = f d := by
  simp [List.getD_eq_getElem?_getD, List.getElem?_range hd]

theorem mixture_fold_getD (D : ℕ) (weights : List ℚ) (l : List (ℕ × Label × SingleClassHMM))
    (acc : List ℚ × List ℚ) (d : ℕ) (hd : d < D) :
    (l.foldl (mixture_step D weights) acc).1.getD d 0
        = acc.1.getD d 0
          + (l.map (fun ip => weights.getD ip.1 0 * ip.2.2.results.output_values.getD d 0)).sum
    ∧ (l.foldl (mixture_step D weights) acc).2.getD d 0
        = acc.2.getD d 0
          + (l.map (fun ip => weights.getD ip.1 0 * ip.2.2.results.output_variance.getD d 0)).sum := by
  induction l generalizing acc with
  | nil => simp
  | cons x t ih =>
    rw [List.foldl_cons, (ih _).1, (ih _).2]
    simp only [mixture_step, getD_map_range _ _ _ hd, List.map_cons, List.sum_cons]
    constructor <;> ring

theorem foldl_forward_update_touch_step_toModel (srcModels l : StdMap SingleClassHMM)
    (acc : HierarchicalHMM) :
    (l.foldl (forward_update_touch_step srcModels) acc).toModel = acc.toModel := by
  induction l generalizing acc with
  | nil => rfl
  | cons x t ih => rw [List.foldl_cons, ih]; rfl

theorem forward_update_touch_toModel (h : HierarchicalHMM) :
    (forward_update_touch h).toModel = h.toModel :=
  foldl_forward_update_touch_step_toModel h.models h.models h

theorem forward_step_ok (ext : Collaborators) (h : HierarchicalHMM) (obs : Observation)
    (hcheck : ext.checkTraining h = .ok ()) :
    ∃ h1, (if h.forward_initialized_ then forward_update ext h obs else forward_init ext h obs)
        = .ok h1
      ∧ h1.shared_parameters = h.shared_parameters ∧ h1.configuration = h.configuration := by
  cases hf : h.forward_initialized_ with
  | true =>
    refine ⟨_, by simp only [if_true, forward_update, hcheck]; rfl, ?_, ?_⟩
    · show (forward_update_touch (withFrontier h)).toModel.shared_parameters = _
      rw [forward_update_touch_toModel]; rfl
    · show (forward_update_touch (withFrontier h)).toModel.configuration = _
      rw [forward_update_touch_toModel]; rfl
  | false =>
    refine ⟨_, by simp only [Bool.false_eq_true, if_false, forward_init, hcheck]; rfl, ?_, ?_⟩
    · rfl
    · rfl

theorem filter_regression_mixture (ext : Collaborators) (g : HierarchicalHMM)
    (obs : Observation) (hest : g.configuration.multiClass_regression_estimator ≠ .Likeliest)
    (d : ℕ) (hd : d < dimension_output g.shared_parameters) :
    (filter_regression ext g obs).results.output_values.getD d 0
      = ((filter_regression ext g obs).models.enum.map (fun ip =>
          (filter_regression ext g obs).results.instant_normalized_likelihoods.getD ip.1 0
            * ip.2.2.results.output_values.getD d 0)).sum
    ∧ (filter_regression ext g obs).results.output_variance.getD d 0
      = ((filter_regression ext g obs).models.enum.map (fun ip =>
          (filter_regression ext g obs).results.instant_normalized_likelihoods.getD ip.1 0
            * ip.2.2.results.output_variance.getD d 0)).sum := by
  have he : ¬ g.configuration.multiClass_regression_estimator = .Likeliest := hest
  simp only [filter_regression, he, if_false]
  have := mixture_fold_getD (dimension_output g.shared_parameters)
    g.results.instant_normalized_likelihoods
    (g.models.map (fun model => (model.1, ext.regression model.2 obs))).enum
    (List.replicate (dimension_output g.shared_parameters) 0,
     List.replicate (dimension_output g.shared_parameters) 0) d hd
  rw [this.1, this.2]
  simp [List.getD_eq_getElem?_getD, List.getElem?_replicate, hd]

/-- C10. Weighted-mixture regression: in bimodal mode with an estimator other
than `Likeliest`, when the training check passes, `filter` returns and for every
output dimension `d` the blended output is the sum over the classes, in
iteration order, of the normalized instantaneous likelihood of the class times
the class output for `d`; the blended variance is the same weighted sum of the
class variances. -/
theorem filter_mixture_regression (ext : Collaborators) (h : HierarchicalHMM)
    (observation : Observation) (hcheck : ext.checkTraining h = .ok ())
    (hbimodal : h.shared_parameters.bimodal = true)
    (hest : h.configuration.multiClass_regression_estimator ≠ .Likeliest) :
    ∃ h', filter ext h observation = .ok h'
      ∧ ∀ d, d < dimension_output h.shared_parameters →
          h'.results.output_values.getD d 0
            = (h'.models.enum.map (fun ip =>
                h'.results.instant_normalized_likelihoods.getD ip.1 0
                  * ip.2.2.results.output_values.getD d 0)).sum
          ∧ h'.results.output_variance.getD d 0
            = (h'.models.enum.map (fun ip =>
                h'.results.instant_normalized_likelihoods.getD ip.1 0
                  * ip.2.2.results.output_variance.getD d 0)).sum := by
  obtain ⟨h1, hstep, hsp, hcf⟩ := forward_step_ok ext h observation hcheck
  have hsp2 : (updateResults ext (filter_progression ext h1)).shared_parameters
      = h.shared_parameters := hsp
  have hcf2 : (updateResults ext (filter_progression ext h1)).configuration
      = h.configuration := hcf
  have hres : filter_results ext h1 observation
      = filter_regression ext (updateResults ext (filter_progression ext h1)) observation := by
    simp only [filter_results, hsp2, hbimodal, if_true]
  refine ⟨filter_results ext h1 observation, ?_, ?_⟩
  · simp only [filter, hcheck, hstep]
  · intro d hd
    rw [hres]
    exact filter_regression_mixture ext _ observation (by rw [hcf2]; exact hest) d
      (by rw [hsp2]; exact hd)

/-- Witness of C10: two classes with outputs 2 and 4 and normalized
instantaneous likelihoods 1/4 and 3/4 give the blended output 7/2. -/
theorem filter_mixture_regression_witness :
    (filter ext0 hierMix []).toOption.map
        (fun h' => (h'.models.map (fun p => p.2.results.output_values),
          h'.results.instant_normalized_likelihoods, h'.results.output_values,
          h'.results.output_variance))
      = some ([[2], [4]], [1 / 4, 3 / 4], [7 / 2], [5 / 2])
    ∧ ∃ h', filter ext0 hierMix [] = .ok h'
      ∧ ∀ d, d < dimension_output hierMix.shared_parameters →
          h'.results.output_values.getD d 0
            = (h'.models.enum.map (fun ip =>
                h'.results.instant_normalized_likelihoods.getD ip.1 0
                  * ip.2.2.results.output_values.getD d 0)).sum
          ∧ h'.results.output_variance.getD d 0
            = (h'.models.enum.map (fun ip =>
                h'.results.instant_normalized_likelihoods.getD ip.1 0
                  * ip.2.2.results.output_variance.getD d 0)).sum :=
  ⟨by decide!, filter_mixture_regression ext0 hierMix [] rfl rfl (by decide)⟩

/-! ## Normalizing externally set weights -/

theorem StdMap.read_touch (m : StdMap ℚ) (k k0 : Label) :
    StdMap.read (StdMap.touch m k 0) k0 0 = StdMap.read m k0 0 := by
  unfold StdMap.touch
  cases hf : StdMap.find m k with
  | some v => rfl
  | none =>
    simp only []
    by_cases hk : k0 = k
    · subst hk
      rw [StdMap.read_assign_self]
      simp [StdMap.read, hf]
    · exact StdMap.read_assign_ne m k k0 0 0 hk

theorem read2_touch2 (t : StdMap (StdMap ℚ)) (s d s0 d0 : Label) :
    read2 (touch2 t s d) s0 d0 = read2 t s0 d0 := by
  by_cases h1 : s0 = s
  · subst h1
    simp only [read2, touch2, StdMap.read_assign_self, StdMap.read_touch]
  · simp only [read2, touch2, StdMap.read_assign_ne _ _ _ _ _ h1]

theorem read2_foldl_touch2 (ls : List Label) (t : StdMap (StdMap ℚ)) (s s0 d0 : Label) :
    read2 (ls.foldl (fun t dst => touch2 t s dst) t) s0 d0 = read2 t s0 d0 := by
  induction ls generalizing t with
  | nil => rfl
  | cons x r ih => rw [List.foldl_cons, ih, read2_touch2]

theorem read2_foldl_divide (ls : List Label) (hnd : ls.Nodup) (c : ℚ)
    (t : StdMap (StdMap ℚ)) (s s0 d0 : Label) :
    read2 (ls.foldl (fun t dst => assign2 t s dst (read2 t s dst / c)) t) s0 d0
      = if s0 = s ∧ d0 ∈ ls then read2 t s0 d0 / c else read2 t s0 d0 := by
  induction ls generalizing t with
  | nil => simp
  | cons x r ih =>
    have hx : x ∉ r := (List.nodup_cons.1 hnd).1
    rw [List.foldl_cons, ih (List.nodup_cons.1 hnd).2]
    simp only [read2_assign2]
    by_cases h1 : s0 = s
    · subst h1
      by_cases h2 : d0 ∈ r
      · have h3 : d0 ≠ x := fun e => hx (e ▸ h2)
        simp [h2, h3]
      · by_cases h3 : d0 = x
        · simp [h3, hx]
        · simp [h2, h3]
    · simp [h1]

theorem normalizeTransitions_step_transition (ls : List Label) (hnd : ls.Nodup)
    (st : ℚ × StdMap ℚ × StdMap (StdMap ℚ)) (src s d : Label) :
    read2 (normalizeTransitions_step ls st src).2.2 s d
      = if s = src ∧ d ∈ ls ∧ 0 < (ls.map (fun dst => read2 st.2.2 src dst)).sum then
          read2 st.2.2 s d / (ls.map (fun dst => read2 st.2.2 src dst)).sum
        else read2 st.2.2 s d := by
  simp only [normalizeTransitions_step, foldl_add_eq_sum, zero_add]
  by_cases hp : 0 < (ls.map (fun dst => read2 st.2.2 src dst)).sum
  · have hp' : (ls.map (fun dst => read2 st.2.2 src dst)).sum > 0 := hp
    simp only [hp', if_true, read2_foldl_divide ls hnd, read2_foldl_touch2, hp, and_true]
  · have hp' : ¬ (ls.map (fun dst => read2 st.2.2 src dst)).sum > 0 := hp
    simp only [hp', if_false, read2_foldl_touch2, hp, and_false, if_false]

theorem normalizeTransitions_step_prior (ls : List Label)
    (st : ℚ × StdMap ℚ × StdMap (StdMap ℚ)) (src k : Label) :
    (normalizeTransitions_step ls st src).1 = st.1 + StdMap.read st.2.1 src 0
    ∧ StdMap.read (normalizeTransitions_step ls st src).2.1 k 0 = StdMap.read st.2.1 k 0 := by
  simp only [normalizeTransitions_step, StdMap.read_touch, and_self]

theorem normalizeTransitions_fold_prior (ls L : List Label)
    (st : ℚ × StdMap ℚ × StdMap (StdMap ℚ)) (k : Label) :
    (L.foldl (normalizeTransitions_step ls) st).1
        = st.1 + (L.map (fun l => StdMap.read st.2.1 l 0)).sum
    ∧ StdMap.read (L.foldl (normalizeTransitions_step ls) st).2.1 k 0
        = StdMap.read st.2.1 k 0 := by
  induction L generalizing st with
  | nil => simp
  | cons x r ih =>
    rw [List.foldl_cons]
    refine ⟨?_, ?_⟩
    · rw [(ih _).1, (normalizeTransitions_step_prior ls st x k).1]
      simp only [List.map_cons, List.sum_cons, add_assoc]
      congr 2
      apply congrArg
      apply List.map_congr_left
      intro l _
      exact (normalizeTransitions_step_prior ls st x l).2
    · rw [(ih _).2, (normalizeTransitions_step_prior ls st x k).2]

theorem normalizeTransitions_fold_transition (ls L : List Label) (hnd : ls.Nodup)
    (hL : L.Nodup) (st : ℚ × StdMap ℚ × StdMap (StdMap ℚ)) (s d : Label) :
    read2 (L.foldl (normalizeTransitions_step ls) st).2.2 s d
      = if s ∈ L ∧ d ∈ ls ∧ 0 < (ls.map (fun dst => read2 st.2.2 s dst)).sum then
          read2 st.2.2 s d / (ls.map (fun dst => read2 st.2.2 s dst)).sum
        else read2 st.2.2 s d := by
  induction L generalizing st with
  | nil => simp
  | cons x r ih =>
    have hx : x ∉ r := (List.nodup_cons.1 hL).1
    rw [List.foldl_cons, ih (List.nodup_cons.1 hL).2]
    by_cases hs : s ∈ r
    · have hne : s ≠ x := fun e => hx (e ▸ hs)
      have hrow : ∀ d0, read2 (normalizeTransitions_step ls st x).2.2 s d0
          = read2 st.2.2 s d0 := by
        intro d0
        rw [normalizeTransitions_step_transition ls hnd]
        simp [hne]
      simp only [hrow, hs, List.mem_cons, or_true, true_and]
    · rw [normalizeTransitions_step_transition ls hnd]
      by_cases he : s = x
      · subst he
        simp [hs]
      · simp [hs, he]

theorem read_foldl_divide (ls : List Label) (hnd : ls.Nodup) (c : ℚ) (p : StdMap ℚ)
    (k : Label) :
    StdMap.read (ls.foldl (fun p src => StdMap.assign p src (StdMap.read p src 0 / c)) p) k 0
      = if k ∈ ls then StdMap.read p k 0 / c else StdMap.read p k 0 := by
  induction ls generalizing p with
  | nil => simp
  | cons x r ih =>
    have hx : x ∉ r := (List.nodup_cons.1 hnd).1
    rw [List.foldl_cons, ih (List.nodup_cons.1 hnd).2]
    by_cases h2 : k ∈ r
    · have h3 : k ≠ x := fun e => hx (e ▸ h2)
      simp [h2, StdMap.read_assign_ne _ _ _ _ _ h3]
    · by_cases h3 : k = x
      · subst h3
        simp [h2, StdMap.read_assign_self]
      · simp [h2, h3, StdMap.read_assign_ne _ _ _ _ _ h3]

theorem nodup_keys_of_WF {V : Type} (m : StdMap V) (hwf : StdMap.WF m) :
    (StdMap.keys m).Nodup := by
  unfold StdMap.WF at hwf
  exact hwf.imp (fun h => ne_of_lt h)

theorem normalizeTransitions_prior_read (h : HierarchicalHMM) (hwf : StdMap.WF h.models)
    (k : Label) :
    StdMap.read (normalizeTransitions h).prior k 0
      = if k ∈ StdMap.keys h.models then StdMap.read h.prior k 0 / priorTotal h
        else StdMap.read h.prior k 0 := by
  have hnd := nodup_keys_of_WF h.models hwf
  simp only [normalizeTransitions]
  rw [read_foldl_divide _ hnd,
    (normalizeTransitions_fold_prior _ _ (0, h.prior, h.transition) k).2,
    (normalizeTransitions_fold_prior _ _ (0, h.prior, h.transition) k).1]
  simp only [zero_add, priorTotal]

theorem normalizeTransitions_transition_read (h : HierarchicalHMM)
    (hwf : StdMap.WF h.models) (s d : Label) :
    read2 (normalizeTransitions h).transition s d
      = if s ∈ StdMap.keys h.models ∧ d ∈ StdMap.keys h.models ∧ 0 < rowSum h s then
          read2 h.transition s d / rowSum h s
        else read2 h.transition s d := by
  have hnd := nodup_keys_of_WF h.models hwf
  simp only [normalizeTransitions]
  rw [normalizeTransitions_fold_transition _ _ hnd hnd]
  rfl


/-- C11. For a hierarchy whose classes form a well-formed map and whose Prior
total over the class labels is positive, after `normalizeTransitions` every
Prior value of a class is the old value divided by the old total and the Prior
values sum to 1; every source class whose Transition row had a positive sum has
each entry equal to the old entry divided by the old row sum, and its row sums
to 1. -/
theorem normalizeTransitions_normalizes (h : HierarchicalHMM) (hwf : StdMap.WF h.models)
    (hpos : 0 < priorTotal h) :
    (∀ l ∈ StdMap.keys h.models,
        StdMap.read (normalizeTransitions h).prior l 0 = StdMap.read h.prior l 0 / priorTotal h)
    ∧ priorTotal (normalizeTransitions h) = 1
    ∧ ∀ src ∈ StdMap.keys h.models, 0 < rowSum h src →
        (∀ dst ∈ StdMap.keys h.models,
          read2 (normalizeTransitions h).transition src dst
            = read2 h.transition src dst / rowSum h src)
        ∧ rowSum (normalizeTransitions h) src = 1 := by
  have hP : ∀ l ∈ StdMap.keys h.models,
      StdMap.read (normalizeTransitions h).prior l 0
        = StdMap.read h.prior l 0 / priorTotal h := by
    intro l hl
    rw [normalizeTransitions_prior_read h hwf, if_pos hl]
  have hT : ∀ src ∈ StdMap.keys h.models, 0 < rowSum h src →
      ∀ dst ∈ StdMap.keys h.models,
        read2 (normalizeTransitions h).transition src dst
          = read2 h.transition src dst / rowSum h src := by
    intro src hsrc hrow dst hdst
    rw [normalizeTransitions_transition_read h hwf, if_pos ⟨hsrc, hdst, hrow⟩]
  refine ⟨hP, ?_, ?_⟩
  · have e : priorTotal (normalizeTransitions h)
        = ((StdMap.keys h.models).map (fun l => StdMap.read h.prior l 0 / priorTotal h)).sum := by
      show ((StdMap.keys h.models).map
        (fun l => StdMap.read (normalizeTransitions h).prior l 0)).sum = _
      exact congrArg List.sum (List.map_congr_left hP)
    have e2 := sum_map_div_const ((StdMap.keys h.models).map
      (fun l => StdMap.read h.prior l 0)) (priorTotal h)
    rw [List.map_map] at e2
    rw [e]
    exact e2.trans (div_self hpos.ne')
  · intro src hsrc hrow
    refine ⟨hT src hsrc hrow, ?_⟩
    have e : rowSum (normalizeTransitions h) src
        = ((StdMap.keys h.models).map
            (fun dst => read2 h.transition src dst / rowSum h src)).sum := by
      show ((StdMap.keys h.models).map
        (fun dst => read2 (normalizeTransitions h).transition src dst)).sum = _
      exact congrArg List.sum (List.map_congr_left (hT src hsrc hrow))
    have e2 := sum_map_div_const ((StdMap.keys h.models).map
      (fun dst => read2 h.transition src dst)) (rowSum h src)
    rw [List.map_map] at e2
    rw [e]
    exact e2.trans (div_self hrow.ne')

/-- Witness of C11: `hierRaw` has Prior 1, 3 (total 4) and the row 2, 6 for "A". -/
theorem normalizeTransitions_normalizes_witness :
    (normalizeTransitions hierRaw).prior = [("A", 1 / 4), ("B", 3 / 4)]
    ∧ (normalizeTransitions hierRaw).transition
        = [("A", [("A", 1 / 4), ("B", 3 / 4)]), ("B", [("A", 0), ("B", 0)])]
    ∧ priorTotal (normalizeTransitions hierRaw) = 1
    ∧ (0 < rowSum hierRaw "A" → rowSum (normalizeTransitions hierRaw) "A" = 1) :=
  ⟨by decide!, by decide!,
   (normalizeTransitions_normalizes hierRaw (by decide!) (by decide!)).2.1,
   fun hr => ((normalizeTransitions_normalizes hierRaw (by decide!) (by decide!)).2.2
     "A" (by decide!) hr).2⟩

theorem StdMap.touch_of_find_isSome (m : StdMap ℚ) (k : Label)
    (hk : (StdMap.find m k).isSome = true) : StdMap.touch m k 0 = m := by
  unfold StdMap.touch
  cases hf : StdMap.find m k with
  | some v => rfl
  | none => rw [hf] at hk; exact absurd hk (by simp)

theorem find_touch2_ne (t : StdMap (StdMap ℚ)) (s d s0 : Label) (hne : s0 ≠ s) :
    StdMap.find (touch2 t s d) s0 = StdMap.find t s0 := by
  simp only [touch2, StdMap.find_assign_ne _ _ _ _ hne]

theorem find_assign2_ne (t : StdMap (StdMap ℚ)) (s d s0 : Label) (v : ℚ) (hne : s0 ≠ s) :
    StdMap.find (assign2 t s d v) s0 = StdMap.find t s0 := by
  simp only [assign2, StdMap.find_assign_ne _ _ _ _ hne]

theorem find_touch2_dense (t : StdMap (StdMap ℚ)) (s d : Label) (row : StdMap ℚ)
    (hrow : StdMap.find t s = some row) (hd : (StdMap.find row d).isSome = true) :
    StdMap.find (touch2 t s d) s = some row := by
  simp only [touch2, StdMap.find_assign_self, StdMap.read, hrow, Option.getD_some,
    StdMap.touch_of_find_isSome row d hd]

theorem find_foldl_touch2_dense (ls : List Label) (t : StdMap (StdMap ℚ)) (s : Label)
    (row : StdMap ℚ) (hrow : StdMap.find t s = some row)
    (hd : ∀ d ∈ ls, (StdMap.find row d).isSome = true) :
    StdMap.find (ls.foldl (fun t dst => touch2 t s dst) t) s = some row := by
  induction ls generalizing t with
  | nil => exact hrow
  | cons x r ih =>
    rw [List.foldl_cons]
    exact ih _ (find_touch2_dense t s x row hrow (hd x (List.mem_cons_self _ _)))
      (fun d hdr => hd d (List.mem_cons_of_mem _ hdr))

theorem find_foldl_touch2_ne (ls : List Label) (t : StdMap (StdMap ℚ)) (s s0 : Label)
    (hne : s0 ≠ s) :
    StdMap.find (ls.foldl (fun t dst => touch2 t s dst) t) s0 = StdMap.find t s0 := by
  induction ls generalizing t with
  | nil => rfl
  | cons x r ih => rw [List.foldl_cons, ih, find_touch2_ne _ _ _ _ hne]

theorem find_foldl_divide_ne (ls : List Label) (c : ℚ) (t : StdMap (StdMap ℚ)) (s s0 : Label)
    (hne : s0 ≠ s) :
    StdMap.find (ls.foldl (fun t dst => assign2 t s dst (read2 t s dst / c)) t) s0
      = StdMap.find t s0 := by
  induction ls generalizing t with
  | nil => rfl
  | cons x r ih => rw [List.foldl_cons, ih, find_assign2_ne _ _ _ _ _ hne]

theorem normalizeTransitions_step_find_ne (ls : List Label)
    (st : ℚ × StdMap ℚ × StdMap (StdMap ℚ)) (src s0 : Label) (hne : s0 ≠ src) :
    StdMap.find (normalizeTransitions_step ls st src).2.2 s0 = StdMap.find st.2.2 s0 := by
  simp only [normalizeTransitions_step]
  split
  · rw [find_foldl_divide_ne _ _ _ _ _ hne, find_foldl_touch2_ne _ _ _ _ hne]
  · rw [find_foldl_touch2_ne _ _ _ _ hne]

theorem normalizeTransitions_fold_find_zero_row (ls L : List Label) (hL : L.Nodup)
    (st : ℚ × StdMap ℚ × StdMap (StdMap ℚ)) (s : Label) (row : StdMap ℚ)
    (hrow : StdMap.find st.2.2 s = some row)
    (hd : ∀ d ∈ ls, (StdMap.find row d).isSome = true)
    (hz : ¬ 0 < (ls.map (fun dst => read2 st.2.2 s dst)).sum) :
    StdMap.find (L.foldl (normalizeTransitions_step ls) st).2.2 s = some row := by
  induction L generalizing st with
  | nil => exact hrow
  | cons x r ih =>
    rw [List.foldl_cons]
    have hreads : ∀ d0, read2 (normalizeTransitions_step ls st x).2.2 s d0
        = read2 st.2.2 s d0 := by
      intro d0
      by_cases he : s = x
      · subst he
        simp only [normalizeTransitions_step, foldl_add_eq_sum, zero_add]
        have hz' : ¬ (ls.map (fun dst => read2 st.2.2 s dst)).sum > 0 := hz
        simp only [hz', if_false, read2_foldl_touch2]
      · have h1 : StdMap.find (normalizeTransitions_step ls st x).2.2 s
            = StdMap.find st.2.2 s := normalizeTransitions_step_find_ne ls st x s he
        simp only [read2, StdMap.read, h1]
    apply ih (List.nodup_cons.1 hL).2
    · by_cases he : s = x
      · subst he
        simp only [normalizeTransitions_step, foldl_add_eq_sum, zero_add]
        have hz' : ¬ (ls.map (fun dst => read2 st.2.2 s dst)).sum > 0 := hz
        simp only [hz', if_false]
        exact find_foldl_touch2_dense ls _ s row hrow hd
      · rw [normalizeTransitions_step_find_ne ls st x s he]
        exact hrow
    · simp only [hreads]
      exact hz

/-- C12. `normalizeTransitions` performs no division on a Transition row whose
entries sum to exactly 0: every entry of the row reads as before, and a row that
holds an entry for every class label is the same map as before; Exit-transition
and the classes are never changed. -/
theorem normalizeTransitions_keeps_zero_rows (h : HierarchicalHMM)
    (hwf : StdMap.WF h.models) :
    (∀ src ∈ StdMap.keys h.models, rowSum h src = 0 →
      (∀ dst, read2 (normalizeTransitions h).transition src dst = read2 h.transition src dst)
      ∧ (∀ row, StdMap.find h.transition src = some row →
          (∀ l ∈ StdMap.keys h.models, (StdMap.find row l).isSome = true) →
          StdMap.find (normalizeTransitions h).transition src = some row))
    ∧ (normalizeTransitions h).exit_transition = h.exit_transition
    ∧ (normalizeTransitions h).models = h.models := by
  refine ⟨?_, rfl, rfl⟩
  intro src _ hz
  have hnot : ¬ 0 < rowSum h src := by rw [hz]; exact lt_irrefl 0
  refine ⟨?_, ?_⟩
  · intro dst
    rw [normalizeTransitions_transition_read h hwf]
    simp [hnot]
  · intro row hrow hdense
    exact normalizeTransitions_fold_find_zero_row _ _ (nodup_keys_of_WF h.models hwf)
      (0, h.prior, h.transition) src row hrow hdense hnot

/-- Witness of C12: in `hierRaw` the row of "B" is zero and stays as it is. -/
theorem normalizeTransitions_keeps_zero_rows_witness :
    rowSum hierRaw "B" = 0
    ∧ StdMap.find (normalizeTransitions hierRaw).transition "B" = some [("A", 0), ("B", 0)]
    ∧ (normalizeTransitions hierRaw).exit_transition = hierRaw.exit_transition :=
  ⟨by decide!,
   ((normalizeTransitions_keeps_zero_rows hierRaw (by decide!)).1 "B" (by decide!)
      (by decide!)).2 _ (by decide!) (by decide!),
   (normalizeTransitions_keeps_zero_rows hierRaw (by decide!)).2.1⟩

/-! ## Run state machine -/

theorem foldl_forward_update_touch_step_initialized (srcModels l : StdMap SingleClassHMM)
    (acc : HierarchicalHMM) :
    (l.foldl (forward_update_touch_step srcModels) acc).forward_initialized_
      = acc.forward_initialized_ := by
  induction l generalizing acc with
  | nil => rfl
  | cons x t ih => rw [List.foldl_cons, ih]; rfl

theorem filter_results_initialized (ext : Collaborators) (h : HierarchicalHMM)
    (obs : Observation) :
    (filter_results ext h obs).forward_initialized_ = h.forward_initialized_ := by
  simp only [filter_results]
  split
  · simp only [filter_regression]
    split <;> rfl
  · rfl

/-- C13 (amended). Run state machine.  When `Model::reset()` returns, `reset`
returns an engine with `forward_initialized_ = false`.  When the training check
passes, a `filter` call on an uninitialized engine runs `forward_init` and
leaves the engine streaming (`forward_initialized_ = true`), and a `filter` call
on a streaming engine runs `forward_update` and leaves it streaming.  A copy of
`h`, and a hierarchy to which `h` is assigned as another object, are
uninitialized whatever the state of `h`; assigning `h` to itself leaves `h` as
it is. -/
theorem run_state_machine (ext : Collaborators) (h : HierarchicalHMM)
    (observation : Observation) (hcheck : ext.checkTraining h = .ok ()) :
    (∀ base, ext.Model_reset h.toModel = .ok base →
      ∃ h1, reset ext h = .ok h1 ∧ h1.forward_initialized_ = false)
    ∧ (h.forward_initialized_ = false →
      ∃ h1, forward_init ext h observation = .ok h1
        ∧ filter ext h observation = .ok (filter_results ext h1 observation)
        ∧ (filter_results ext h1 observation).forward_initialized_ = true)
    ∧ (h.forward_initialized_ = true →
      ∃ h1, forward_update ext h observation = .ok h1
        ∧ filter ext h observation = .ok (filter_results ext h1 observation)
        ∧ (filter_results ext h1 observation).forward_initialized_ = true)
    ∧ (HierarchicalHMM.ctor_copy h).forward_initialized_ = false
    ∧ (∀ target, (HierarchicalHMM.operator_assign target h false).forward_initialized_ = false)
    ∧ (HierarchicalHMM.operator_assign h h true).forward_initialized_
        = h.forward_initialized_ := by
  refine ⟨?_, ?_, ?_, rfl, fun _ => rfl, rfl⟩
  · intro base hbase
    exact ⟨_, by simp only [reset, hbase]; rfl, rfl⟩
  · intro hf
    have hinit : ∃ h1, forward_init ext h observation = .ok h1
        ∧ h1.forward_initialized_ = true :=
      ⟨_, by simp only [forward_init, hcheck]; rfl, rfl⟩
    obtain ⟨h1, h1eq, h1f⟩ := hinit
    refine ⟨h1, h1eq, ?_, ?_⟩
    · simp only [filter, hcheck, hf, Bool.false_eq_true, if_false, h1eq]
    · rw [filter_results_initialized, h1f]
  · intro hf
    have hupd : ∃ h1, forward_update ext h observation = .ok h1
        ∧ h1.forward_initialized_ = true := by
      refine ⟨_, by simp only [forward_update, hcheck]; rfl, ?_⟩
      show (forward_update_touch (withFrontier h)).forward_initialized_ = true
      unfold forward_update_touch
      rw [foldl_forward_update_touch_step_initialized]
      exact hf
    obtain ⟨h1, h1eq, h1f⟩ := hupd
    refine ⟨h1, h1eq, ?_, ?_⟩
    · simp only [filter, hcheck, hf, if_true, h1eq]
    · rw [filter_results_initialized, h1f]

/-- Witness of C13 (amended): `hierAB` is streaming; after `reset` the first `filter`
makes the engine streaming again, and a copy of `hierAB` is uninitialized. -/
theorem run_state_machine_witness :
    (reset ext0 hierAB).toOption.map (fun h1 => h1.forward_initialized_) = some false
    ∧ ((reset ext0 hierAB).toOption.bind (fun h1 => (filter ext0 h1 []).toOption)).map
        (fun h2 => h2.forward_initialized_) = some true
    ∧ (∃ h1, forward_update ext0 hierAB [] = .ok h1
        ∧ filter ext0 hierAB [] = .ok (filter_results ext0 h1 [])
        ∧ (filter_results ext0 h1 []).forward_initialized_ = true)
    ∧ (HierarchicalHMM.ctor_copy hierAB).forward_initialized_ = false :=
  ⟨by decide!, by decide!, (run_state_machine ext0 hierAB [] rfl).2.2.1 rfl,
   (run_state_machine ext0 hierAB [] rfl).2.2.2.1⟩

/-- C13 (counterexample). The streaming hierarchy `hierAB` assigned to itself:
the guard `this != &src` skips the body of `operator=`, so the assigned
hierarchy is still streaming, not uninitialized. -/
theorem self_assignment_stays_streaming :
    hierAB.forward_initialized_ = true
    ∧ (HierarchicalHMM.operator_assign hierAB hierAB true).forward_initialized_ = true := by
  constructor <;> rfl

/-! ## Exit ratio -/

/-- C16. Partition step of `forward_update`: for every state `k` of a class,
with `m = emission(k) x front(k)`, the values stored before the normalization
are `exit_transition x exit_probability(k) x m` (hard exit),
`(1 - exit_transition) x exit_probability(k) x m` (soft exit) and
`(1 - exit_probability(k)) x m` (continue); the three sum to `m`. -/
theorem forward_update_partition (h : HierarchicalHMM) (observation : Observation)
    (dst : Label) (m : SingleClassHMM) (k : ℕ) (hk : k < m.states) :
    (forward_update_class h observation dst m).alpha_h2.getD k 0
        = StdMap.read h.exit_transition dst 0 * m.exit_probabilities_.getD k 0
          * (emission h.shared_parameters.bimodal m k observation * (front h dst m).getD k 0)
    ∧ (forward_update_class h observation dst m).alpha_h1.getD k 0
        = (1 - StdMap.read h.exit_transition dst 0) * m.exit_probabilities_.getD k 0
          * (emission h.shared_parameters.bimodal m k observation * (front h dst m).getD k 0)
    ∧ (forward_update_class h observation dst m).alpha_h0.getD k 0
        = (1 - m.exit_probabilities_.getD k 0)
          * (emission h.shared_parameters.bimodal m k observation * (front h dst m).getD k 0)
    ∧ (forward_update_class h observation dst m).alpha_h0.getD k 0
        + (forward_update_class h observation dst m).alpha_h1.getD k 0
        + (forward_update_class h observation dst m).alpha_h2.getD k 0
        = emission h.shared_parameters.bimodal m k observation * (front h dst m).getD k 0 := by
  simp only [forward_update_class, getD_map_range _ _ _ hk, forward_update_tmp]
  refine ⟨trivial, trivial, trivial, ?_⟩
  ring

/-- Witness of C16: state 1 of the class "A" of `hierAB`. -/
theorem forward_update_partition_witness :
    (forward_update_class (withFrontier hierAB) [] "A" classA).alpha_h2.getD 1 0
      = StdMap.read (withFrontier hierAB).exit_transition "A" 0
        * classA.exit_probabilities_.getD 1 0
        * (emission (withFrontier hierAB).shared_parameters.bimodal classA 1 []
            * (front (withFrontier hierAB) "A" classA).getD 1 0) :=
  (forward_update_partition (withFrontier hierAB) [] "A" classA 1 (by decide)).1

theorem foldl_frontierTerm (h : HierarchicalHMM) (dst : Label) (a : ℚ) :
    h.models.enum.foldl (fun acc ip => acc + frontierTerm h dst ip) a
      = a + crossClassInflow h dst := by
  rw [foldl_add_eq_sum]
  rfl

theorem foldl_prior_frontierTerm (h : HierarchicalHMM) (dst : Label) (p a : ℚ) :
    h.models.enum.foldl (fun acc ip => acc + p * frontierTerm h dst ip) a
      = a + p * crossClassInflow h dst := by
  rw [foldl_add_eq_sum]
  congr 1
  simp only [crossClassInflow]
  generalize h.models.enum = l
  induction l with
  | nil => simp
  | cons x t ih => simp only [List.map_cons, List.sum_cons, ih]; ring

/-- C17. Strictly-ordered recursion of `forward_update`: for a left-right class
with `N` states, `front[0]` is the self-transition weight of state 0 times the
previous `continue[0]` plus the cross-class inflow (the sum accumulated over the
classes), and for `0 < k < N`
`front[k] = self(k) / (1 - exit_probability(k)) x continue[k]
  + next(k-1) / (1 - exit_probability(k-1)) x continue[k-1]`,
with `self(k) = transition[2k]` and `next(k) = transition[2k+1]`. -/
theorem front_strictly_ordered (h : HierarchicalHMM) (dst : Label) (m : SingleClassHMM)
    (hmode : m.transition_mode = .LeftRight) :
    (0 < m.states →
      (front h dst m).getD 0 0
        = m.transition.getD 0 0 * m.alpha_h0.getD 0 0 + crossClassInflow h dst)
    ∧ ∀ k, 0 < k → k < m.states →
      (front h dst m).getD k 0
        = m.transition.getD (k * 2) 0 / (1 - m.exit_probabilities_.getD k 0)
            * m.alpha_h0.getD k 0
          + m.transition.getD ((k - 1) * 2 + 1) 0
              / (1 - m.exit_probabilities_.getD (k - 1) 0) * m.alpha_h0.getD (k - 1) 0 := by
  constructor
  · intro hN
    simp only [front, getD_map_range _ _ _ hN, hmode, front_leftright, if_true,
      foldl_frontierTerm]
  · intro k hk0 hkN
    have hk : ¬ k = 0 := Nat.pos_iff_ne_zero.1 hk0
    simp only [front, getD_map_range _ _ _ hkN, hmode, front_leftright, hk, if_false, zero_add]

/-- Witness of C17: the left-right class "A" of `hierAB`, whose `front` is
1/4 for state 0 and 3/8 for state 1. -/
theorem front_strictly_ordered_witness :
    front (withFrontier hierAB) "A" classA = [1 / 4, 3 / 8]
    ∧ (front (withFrontier hierAB) "A" classA).getD 0 0
        = classA.transition.getD 0 0 * classA.alpha_h0.getD 0 0
          + crossClassInflow (withFrontier hierAB) "A" :=
  ⟨by decide!, (front_strictly_ordered (withFrontier hierAB) "A" classA rfl).1 (by decide)⟩

/-- C18. Fully-connected recursion of `forward_update`: for an ergodic class
with `N` states and every destination state `k < N`, `front[k]` is the sum over
all source states `j` of `transition[j * N + k] / (1 - exit_probability(j))`
times the previous `continue[j]`, plus the internal prior of state `k` times the
cross-class inflow into the class. -/
theorem front_fully_connected (h : HierarchicalHMM) (dst : Label) (m : SingleClassHMM)
    (hmode : m.transition_mode = .Ergodic) (k : ℕ) (hk : k < m.states) :
    (front h dst m).getD k 0
      = ((List.range m.states).map (fun j =>
          m.transition.getD (j * m.states + k) 0 / (1 - m.exit_probabilities_.getD j 0)
            * m.alpha_h0.getD j 0)).sum
        + m.prior.getD k 0 * crossClassInflow h dst := by
  simp only [front, getD_map_range _ _ _ hk, hmode, front_ergodic]
  rw [foldl_prior_frontierTerm, foldl_add_eq_sum, zero_add]

/-- Witness of C18: state 1 of the ergodic class "B" of `hierAB`. -/
theorem front_fully_connected_witness :
    front (withFrontier hierAB) "B" classB = [13 / 48, 13 / 48]
    ∧ (front (withFrontier hierAB) "B" classB).getD 1 0
      = ((List.range classB.states).map (fun j =>
          classB.transition.getD (j * classB.states + 1) 0
            / (1 - classB.exit_probabilities_.getD j 0) * classB.alpha_h0.getD j 0)).sum
        + classB.prior.getD 1 0 * crossClassInflow (withFrontier hierAB) "B" :=
  ⟨by decide!, front_fully_connected (withFrontier hierAB) "B" classB rfl 1 (by decide)⟩


theorem enum_map_eq_map {α β : Type} (l : List α) (H : ℕ × α → β) (K : α → β)
    (hHK : ∀ i (hi : i < l.length), H (i, l[i]) = K l[i]) :
    l.enum.map H = l.map K := by
  apply List.ext_getElem
  · simp
  · intro i h1 h2
    simp only [List.getElem_map, List.getElem_enum]
    exact hHK i (by simpa using h2)

theorem getD_map_append {α : Type} (l : List α) (f : α → ℚ) (rest : List ℚ) (i : ℕ)
    (hi : i < l.length) : (l.map f ++ rest).getD i 0 = f l[i] := by
  simp [List.getD_eq_getElem?_getD, List.getElem?_append_left, hi]

theorem crossClassInflow_withFrontier (h : HierarchicalHMM) (dst : Label) :
    crossClassInflow (withFrontier h) dst = (h.models.map (inflowTerm h dst)).sum := by
  simp only [crossClassInflow]
  apply congrArg
  show h.models.enum.map (frontierTerm (withFrontier h) dst) = _
  apply enum_map_eq_map
  intro i hi
  simp only [frontierTerm, inflowTerm, withFrontier, likelihoodAlpha,
    getD_map_append _ _ _ _ hi]

/-- C19 (amended). Cross-class inflow of `forward_update`: for every
destination class, the inflow accumulated by the loop over the classes is the
sum, over every class `S` (the destination itself included), of the total
soft-exit mass of `S` times `transition[S][dst]` plus `prior[dst]` times the
total hard-exit mass of `S`, the totals being taken by `likelihoodAlpha` from the
forward arrays of the previous frame before any class is updated; it enters
`front[0]` of a left-right class and, scaled by the internal prior, `front[k]`
of an ergodic class. -/
theorem cross_class_inflow_over_all_classes (h : HierarchicalHMM) (dst : Label)
    (m : SingleClassHMM) :
    crossClassInflow (withFrontier h) dst = (h.models.map (inflowTerm h dst)).sum
    ∧ (m.transition_mode = .LeftRight → 0 < m.states →
        (front (withFrontier h) dst m).getD 0 0
          = m.transition.getD 0 0 * m.alpha_h0.getD 0 0
            + (h.models.map (inflowTerm h dst)).sum)
    ∧ (m.transition_mode = .Ergodic → ∀ k, k < m.states →
        (front (withFrontier h) dst m).getD k 0
          = ((List.range m.states).map (fun j =>
              m.transition.getD (j * m.states + k) 0 / (1 - m.exit_probabilities_.getD j 0)
                * m.alpha_h0.getD j 0)).sum
            + m.prior.getD k 0 * (h.models.map (inflowTerm h dst)).sum) := by
  refine ⟨crossClassInflow_withFrontier h dst, ?_, ?_⟩
  · intro hmode hN
    simp only [front, getD_map_range _ _ _ hN, hmode, front_leftright, if_true]
    rw [foldl_add_eq_sum]
    exact congrArg _ (crossClassInflow_withFrontier h dst)
  · intro hmode k hk
    simp only [front, getD_map_range _ _ _ hk, hmode, front_ergodic]
    have e : ∀ (p a : ℚ), (withFrontier h).models.enum.foldl
        (fun acc ip => acc + p * frontierTerm (withFrontier h) dst ip) a
          = a + p * crossClassInflow (withFrontier h) dst := by
      intro p a
      rw [foldl_add_eq_sum]
      congr 1
      simp only [crossClassInflow]
      generalize (withFrontier h).models.enum = l
      induction l with
      | nil => simp
      | cons x t ih => simp only [List.map_cons, List.sum_cons, ih]; ring
    rw [e, foldl_add_eq_sum, zero_add, crossClassInflow_withFrontier]

/-- Witness of C19 (amended): the inflow 1/8 into the class "A" of `hierAB` is
the sum of the terms 1/16 of "A" itself and 1/16 of "B". -/
theorem cross_class_inflow_over_all_classes_witness :
    hierAB.models.map (inflowTerm hierAB "A") = [1 / 16, 1 / 16]
    ∧ (front (withFrontier hierAB) "A" classA).getD 0 0
        = classA.transition.getD 0 0 * classA.alpha_h0.getD 0 0
          + (hierAB.models.map (inflowTerm hierAB "A")).sum :=
  ⟨by decide!,
   (cross_class_inflow_over_all_classes hierAB "A" classA).2.1 rfl (by decide)⟩

/-- C19 (counterexample). In `hierAB` the class "A" has soft-exit and hard-exit
mass 1/16 each; the inflow into "A" accumulated by `forward_update` is 1/8 and
`front[0]` of "A" is 1/4, while the sum over the classes other than "A" is 1/16
and would give 3/16. -/
theorem cross_class_inflow_includes_destination :
    crossClassInflow (withFrontier hierAB) "A" = 1 / 8
    ∧ crossClassInflow_others hierAB "A" = 1 / 16
    ∧ (front (withFrontier hierAB) "A" classA).getD 0 0 = 1 / 4
    ∧ classA.transition.getD 0 0 * classA.alpha_h0.getD 0 0
        + crossClassInflow_others hierAB "A" = 3 / 16 := by
  refine ⟨by decide!, by decide!, by decide!, by decide!⟩

/-! ## First-frame values -/

theorem getD_map_div (v : List ℚ) (c : ℚ) (k : ℕ) :
    (v.map (fun x => x / c)).getD k 0 = v.getD k 0 / c := by
  simp only [List.getD_eq_getElem?_getD, List.getElem?_map]
  cases v[k]? with
  | none => simp
  | some x => simp

theorem getD_replicate_zero (N k : ℕ) : (List.replicate N (0 : ℚ)).getD k 0 = 0 := by
  simp only [List.getD_eq_getElem?_getD, List.getElem?_replicate]
  split <;> rfl

theorem getD_set_replicate_zero (N k : ℕ) (x : ℚ) :
    ((List.replicate N (0 : ℚ)).set 0 x).getD k 0 = if k = 0 ∧ 0 < N then x else 0 := by
  cases N with
  | zero => simp
  | succ n =>
    cases k with
    | zero => simp [List.replicate_succ]
    | succ j =>
      simp only [List.replicate_succ, List.set_cons_zero, List.getD_cons_succ,
        getD_replicate_zero]
      simp

/-- C20. First-frame initialisation: after `forward_init` with a non-zero
normalization constant `c` (the training check passing), a left-right class with
at least one state has `continue[0] = Prior[class] x emission(state 0) / c` and
every other continue entry 0; an ergodic class has
`continue[i] = internal prior[i] x emission(state i) / c` for every state `i`;
every soft-exit and hard-exit entry of every class is 0, and the three arrays
hold one entry per state.  The classes before and after the call correspond in
iteration order. -/
theorem forward_init_values (ext : Collaborators) (h : HierarchicalHMM)
    (observation : Observation) (hcheck : ext.checkTraining h = .ok ())
    (hnorm : forward_init_norm_const h observation ≠ 0) :
    ∃ h', forward_init ext h observation = .ok h'
      ∧ List.Forall₂ (fun (q p : Label × SingleClassHMM) =>
          p.1 = q.1
          ∧ (q.2.transition_mode = .LeftRight → 0 < q.2.states →
              p.2.alpha_h0.getD 0 0
                = StdMap.read h.prior q.1 0
                    * emission h.shared_parameters.bimodal q.2 0 observation
                  / forward_init_norm_const h observation
              ∧ ∀ k, 0 < k → p.2.alpha_h0.getD k 0 = 0)
          ∧ (q.2.transition_mode = .Ergodic → ∀ i, i < q.2.states →
              p.2.alpha_h0.getD i 0
                = q.2.prior.getD i 0 * emission h.shared_parameters.bimodal q.2 i observation
                  / forward_init_norm_const h observation)
          ∧ (∀ k, p.2.alpha_h1.getD k 0 = 0 ∧ p.2.alpha_h2.getD k 0 = 0)
          ∧ p.2.alpha_h0.length = q.2.states ∧ p.2.alpha_h1.length = q.2.states
          ∧ p.2.alpha_h2.length = q.2.states)
          h.models h'.models := by
  have _ := hnorm
  refine ⟨_, by simp only [forward_init, hcheck]; rfl, ?_⟩
  show List.Forall₂ _ h.models ((forward_init_models h observation).map _)
  simp only [forward_init_models, List.map_map]
  rw [List.forall₂_map_right_iff, List.forall₂_same]
  intro q _
  simp only [Function.comp]
  have hst : (forward_init_class h.shared_parameters.bimodal h.prior observation q.1 q.2).states
      = q.2.states := by
    simp only [forward_init_class]; split <;> rfl
  have hl0 : (forward_init_class h.shared_parameters.bimodal h.prior observation q.1
      q.2).alpha_h0.length = q.2.states := by
    simp only [forward_init_class]; split <;> simp
  have hl1 : (forward_init_class h.shared_parameters.bimodal h.prior observation q.1
      q.2).alpha_h1 = List.replicate q.2.states 0 := by
    simp only [forward_init_class]; split <;> rfl
  have hl2 : (forward_init_class h.shared_parameters.bimodal h.prior observation q.1
      q.2).alpha_h2 = List.replicate q.2.states 0 := by
    simp only [forward_init_class]; split <;> rfl
  have e0 : (normalizeAlpha (forward_init_norm_const h observation)
      (forward_init_class h.shared_parameters.bimodal h.prior observation q.1 q.2)).alpha_h0
      = (forward_init_class h.shared_parameters.bimodal h.prior observation q.1
          q.2).alpha_h0.map (fun x => x / forward_init_norm_const h observation) :=
    divFirst_eq_map _ _ _ (by rw [hl0, hst])
  have e1 : (normalizeAlpha (forward_init_norm_const h observation)
      (forward_init_class h.shared_parameters.bimodal h.prior observation q.1 q.2)).alpha_h1
      = (List.replicate q.2.states (0 : ℚ)).map
          (fun x => x / forward_init_norm_const h observation) := by
    rw [← hl1]
    exact divFirst_eq_map _ _ _ (by rw [hl1, hst]; simp)
  have e2 : (normalizeAlpha (forward_init_norm_const h observation)
      (forward_init_class h.shared_parameters.bimodal h.prior observation q.1 q.2)).alpha_h2
      = (List.replicate q.2.states (0 : ℚ)).map
          (fun x => x / forward_init_norm_const h observation) := by
    rw [← hl2]
    exact divFirst_eq_map _ _ _ (by rw [hl2, hst]; simp)
  refine ⟨trivial, ?_, ?_, ?_, ?_, ?_, ?_⟩
  · intro hmode hN
    rw [e0]
    simp only [forward_init_class, hmode, getD_map_div, getD_set_replicate_zero]
    refine ⟨by simp [hN], ?_⟩
    intro k hk
    have hk0 : ¬ k = 0 := Nat.pos_iff_ne_zero.1 hk
    simp [hk0]
  · intro hmode i hi
    rw [e0]
    simp only [forward_init_class, hmode, getD_map_div, getD_map_range _ _ _ hi]
  · intro k
    rw [e1, e2]
    simp [getD_map_div, getD_replicate_zero]
  · rw [e0]; simp [hl0]
  · rw [e1]; simp
  · rw [e2]; simp

/-- Witness of C20: `forward_init` on `hierAB`, with normalization constant
17/12. -/
theorem forward_init_values_witness :
    (forward_init ext0 hierAB []).toOption.map
        (fun h2 => h2.models.map (fun p => (p.2.alpha_h0, p.2.alpha_h1, p.2.alpha_h2)))
      = some [([3 / 17, 0], [0, 0], [0, 0]), ([2 / 17, 6 / 17], [0, 0], [0, 0])]
    ∧ ∃ h', forward_init ext0 hierAB [] = .ok h'
      ∧ List.Forall₂ (fun (q p : Label × SingleClassHMM) =>
          p.1 = q.1
          ∧ (q.2.transition_mode = .LeftRight → 0 < q.2.states →
              p.2.alpha_h0.getD 0 0
                = StdMap.read hierAB.prior q.1 0
                    * emission hierAB.shared_parameters.bimodal q.2 0 []
                  / forward_init_norm_const hierAB []
              ∧ ∀ k, 0 < k → p.2.alpha_h0.getD k 0 = 0)
          ∧ (q.2.transition_mode = .Ergodic → ∀ i, i < q.2.states →
              p.2.alpha_h0.getD i 0
                = q.2.prior.getD i 0 * emission hierAB.shared_parameters.bimodal q.2 i []
                  / forward_init_norm_const hierAB [])
          ∧ (∀ k, p.2.alpha_h1.getD k 0 = 0 ∧ p.2.alpha_h2.getD k 0 = 0)
          ∧ p.2.alpha_h0.length = q.2.states ∧ p.2.alpha_h1.length = q.2.states
          ∧ p.2.alpha_h2.length = q.2.states)
          hierAB.models h'.models :=
  ⟨by decide!, forward_init_values ext0 hierAB [] rfl (by decide!)⟩

/-! ## Ring buffer access -/

/-- C15. `RingBuffer::operator()(c, i)` raises an out-of-range error if and only
if `c >= channels` or `i` is not below the number of stored elements (`length`
when the buffer is full, otherwise the write index); in every other case it
returns the stored element `data[c][i]`. -/
theorem RingBuffer_access (b : RingBuffer) (c i : ℕ) :
    ((∃ what, b.operator_call c i = .error (.out_of_range what))
      ↔ (c ≥ b.channels ∨ i ≥ (if b.full then b.length else b.index)))
    ∧ (¬ (c ≥ b.channels ∨ i ≥ (if b.full then b.length else b.index)) →
        b.operator_call c i = .ok ((b.data.getD c []).getD i 0)) := by
  by_cases hc : c ≥ b.channels
  · simp [RingBuffer.operator_call, hc]
  · by_cases hi : i ≥ (if b.full then b.length else b.index)
    · simp [RingBuffer.operator_call, hc, hi]
    · simp only [RingBuffer.operator_call, hc, hi, if_false, or_self, not_false_eq_true,
        forall_true_left, and_true, iff_false, not_exists]
      intro what hw
      cases hw

/-- Witness of C15: `ringTwo` holds two elements; index 1 is read, index 2 and
channel 1 are out of range. -/
theorem RingBuffer_access_witness :
    ringTwo.operator_call 0 1 = .ok 7
    ∧ ringTwo.operator_call 0 2 = .error (.out_of_range "index out of bounds")
    ∧ ringTwo.operator_call 1 0 = .error (.out_of_range "channel out of bounds")
    ∧ (¬ (0 ≥ ringTwo.channels ∨ 1 ≥ (if ringTwo.full then ringTwo.length else ringTwo.index)) →
        ringTwo.operator_call 0 1 = .ok ((ringTwo.data.getD 0 []).getD 1 0)) :=
  ⟨rfl, rfl, rfl, (RingBuffer_access ringTwo 0 1).2⟩

/-! ## Default tables -/

theorem updateTransition_fold_components {α β : Type} (L : List (Label × α))
    (inner : List (Label × β)) (e c : ℚ) (st : StdMap ℚ × StdMap (StdMap ℚ)) :
    L.foldl (fun (st : StdMap ℚ × StdMap (StdMap ℚ)) srcModel =>
        (StdMap.assign st.1 srcModel.1 e,
         inner.foldl (fun t dstModel => assign2 t srcModel.1 dstModel.1 c) st.2)) st
      = (L.foldl (fun m srcModel => StdMap.assign m srcModel.1 e) st.1,
         L.foldl (fun t srcModel =>
           inner.foldl (fun t dstModel => assign2 t srcModel.1 dstModel.1 c) t) st.2) := by
  induction L generalizing st with
  | nil => rfl
  | cons x t ih => rw [List.foldl_cons, ih]; rfl

theorem updateTransition_tables (ext : Collaborators) (h : HierarchicalHMM)
    (hwf : StdMap.WF h.models) :
    (updateTransition ext h).exit_transition
        = h.models.map (fun p => (p.1, ext.DEFAULT_EXITTRANSITION))
    ∧ (updateTransition ext h).transition
        = h.models.map (fun s => (s.1, h.models.map (fun d => (d.1, 1 / (h.size : ℚ))))) := by
  simp only [updateTransition, updateTransition_fold_components]
  constructor
  · have := StdMap.foldl_assign_of_sorted
      (fun _ : Label × SingleClassHMM => ext.DEFAULT_EXITTRANSITION) h.models []
      (by simpa [StdMap.keys, StdMap.WF] using hwf)
    simpa using this
  · by_cases hne : h.models = []
    · simp [hne]
    · have hrows := foldl_assign2_rows
        (h.models.map (fun s => (s.1, h.models.map (fun d => (d.1, 1 / (h.size : ℚ)))))) []
        (by simpa [StdMap.keys, StdMap.WF, List.map_map, Function.comp] using hwf)
        (by
          intro r hr
          obtain ⟨s, _, rfl⟩ := List.mem_map.1 hr
          refine ⟨?_, ?_⟩
          · simpa [StdMap.keys, StdMap.WF, List.map_map, Function.comp] using hwf
          · simpa using hne)
      simp only [List.foldl_map, List.nil_append] at hrows
      exact hrows

/-- C21. After the default-parameter derivation (`updatePrior` followed by
`updateTransition`) of a hierarchy whose classes form a well-formed map, the
keys of Prior, of Exit-transition and of Transition are the class labels, every
Transition row has the class labels as its keys (one entry per ordered pair,
self pairs included), every Prior value and every Transition value is `1/N` and
every Exit-transition value is `DEFAULT_EXITTRANSITION()`, whatever the tables
held before. -/
theorem default_parameters_tables (ext : Collaborators) (h : HierarchicalHMM)
    (hwf : StdMap.WF h.models) :
    StdMap.keys (updateTransition ext (updatePrior h)).prior = StdMap.keys h.models
    ∧ StdMap.keys (updateTransition ext (updatePrior h)).exit_transition
        = StdMap.keys h.models
    ∧ StdMap.keys (updateTransition ext (updatePrior h)).transition = StdMap.keys h.models
    ∧ (∀ row ∈ (updateTransition ext (updatePrior h)).transition,
        StdMap.keys row.2 = StdMap.keys h.models)
    ∧ (∀ e ∈ (updateTransition ext (updatePrior h)).prior, e.2 = 1 / (h.size : ℚ))
    ∧ (∀ row ∈ (updateTransition ext (updatePrior h)).transition,
        ∀ e ∈ row.2, e.2 = 1 / (h.size : ℚ))
    ∧ (∀ e ∈ (updateTransition ext (updatePrior h)).exit_transition,
        e.2 = ext.DEFAULT_EXITTRANSITION) := by
  have hp : (updateTransition ext (updatePrior h)).prior
      = h.models.map (fun p => (p.1, 1 / (h.size : ℚ))) := updatePrior_prior_of_WF h hwf
  have ht := updateTransition_tables ext (updatePrior h) hwf
  have hm : (updatePrior h).models = h.models := rfl
  have hs : (updatePrior h).size = h.size := rfl
  rw [hm, hs] at ht
  rw [hp, ht.1, ht.2]
  refine ⟨?_, ?_, ?_, ?_, ?_, ?_, ?_⟩
  · simp [StdMap.keys, List.map_map, Function.comp]
  · simp [StdMap.keys, List.map_map, Function.comp]
  · simp [StdMap.keys, List.map_map, Function.comp]
  · intro row hrow
    obtain ⟨s, _, rfl⟩ := List.mem_map.1 hrow
    simp [StdMap.keys, List.map_map, Function.comp]
  · intro e he
    obtain ⟨p, _, rfl⟩ := List.mem_map.1 he
    rfl
  · intro row hrow e he
    obtain ⟨s, _, rfl⟩ := List.mem_map.1 hrow
    obtain ⟨d, _, rfl⟩ := List.mem_map.1 he
    rfl
  · intro e he
    obtain ⟨p, _, rfl⟩ := List.mem_map.1 he
    rfl

/-- Witness of C21: the tables derived for `hierCustom` replace its custom
weights by 1/2 everywhere and the exit-transition by 1/10. -/
theorem default_parameters_tables_witness :
    (updateTransition ext0 (updatePrior hierCustom)).prior = [("A", 1 / 2), ("B", 1 / 2)]
    ∧ (updateTransition ext0 (updatePrior hierCustom)).transition
        = [("A", [("A", 1 / 2), ("B", 1 / 2)]), ("B", [("A", 1 / 2), ("B", 1 / 2)])]
    ∧ (updateTransition ext0 (updatePrior hierCustom)).exit_transition
        = [("A", 1 / 10), ("B", 1 / 10)]
    ∧ StdMap.keys (updateTransition ext0 (updatePrior hierCustom)).prior
        = StdMap.keys hierCustom.models :=
  ⟨by decide!, by decide!, by decide!,
   (default_parameters_tables ext0 hierCustom (by decide!)).1⟩

/-! ## Re-derivation on a changed class count -/

/-- C22. `updateTransitionParameters` re-derives the default tables exactly
when the number of classes differs from the number of Prior entries: then its
result is `updateExitProbabilities` after `updateTransition` after
`updatePrior`; when the two counts are equal the hierarchy is returned
unchanged.  For classes forming a well-formed map a second call in a row
changes nothing. -/
theorem updateTransitionParameters_rederives_iff_count_differs (ext : Collaborators)
    (h : HierarchicalHMM) :
    (h.size ≠ h.prior.length →
      updateTransitionParameters ext h
        = updateExitProbabilities ext (updateTransition ext (updatePrior h)))
    ∧ (h.size = h.prior.length → updateTransitionParameters ext h = h)
    ∧ (StdMap.WF h.models →
      updateTransitionParameters ext (updateTransitionParameters ext h)
        = updateTransitionParameters ext h) := by
  refine ⟨?_, ?_, ?_⟩
  · intro hne
    simp only [updateTransitionParameters, hne, if_false]
  · intro he
    simp only [updateTransitionParameters, he, if_true]
  · intro hwf
    by_cases he : h.size = h.prior.length
    · simp only [updateTransitionParameters, he, if_true]
    · have h1 : updateTransitionParameters ext h
          = updateExitProbabilities ext (updateTransition ext (updatePrior h)) := by
        simp only [updateTransitionParameters, he, if_false]
      rw [h1]
      have hsz : (updateExitProbabilities ext (updateTransition ext (updatePrior h))).size
          = (updateExitProbabilities ext (updateTransition ext (updatePrior h))).prior.length := by
        have hp : (updateExitProbabilities ext (updateTransition ext (updatePrior h))).prior
            = h.models.map (fun p => (p.1, 1 / (h.size : ℚ))) :=
          updatePrior_prior_of_WF h hwf
        rw [hp]
        simp [HierarchicalHMM.size, updateExitProbabilities, updateTransition, updatePrior]
      simp only [updateTransitionParameters, hsz, if_true]

/-- Witness of C22: `hierAB` has two classes and two Prior entries and is
returned unchanged; without its Prior entry for "B" the tables are re-derived. -/
theorem updateTransitionParameters_rederives_iff_count_differs_witness :
    updateTransitionParameters ext0 hierAB = hierAB
    ∧ (updateTransitionParameters ext0 { hierCustom with prior := [("A", 1)] }).prior
        = [("A", 1 / 2), ("B", 1 / 2)]
    ∧ updateTransitionParameters ext0 (updateTransitionParameters ext0 hierAB)
        = updateTransitionParameters ext0 hierAB
    ∧ updateTransitionParameters ext0 { hierCustom with prior := [("A", 1)] }
        = updateExitProbabilities ext0 (updateTransition ext0
            (updatePrior { hierCustom with prior := [("A", 1)] })) :=
  ⟨(updateTransitionParameters_rederives_iff_count_differs ext0 hierAB).2.1 (by decide),
   by decide!,
   (updateTransitionParameters_rederives_iff_count_differs ext0 hierAB).2.2 (by decide!),
   (updateTransitionParameters_rederives_iff_count_differs ext0
      { hierCustom with prior := [("A", 1)] }).1 (by decide)⟩

/-! ## Instantaneous likelihoods and forward mass -/

theorem getD_cases (l : List ℚ) (i : ℕ) : l.getD i 0 = 0 ∨ l.getD i 0 ∈ l := by
  rw [List.getD_eq_getElem?_getD]
  cases hi : l[i]? with
  | none => left; rfl
  | some x => right; exact List.getElem?_mem hi

theorem getD_nonneg (l : List ℚ) (hl : ∀ x ∈ l, 0 ≤ x) (i : ℕ) : 0 ≤ l.getD i 0 := by
  rcases getD_cases l i with h | h
  · rw [h]
  · exact hl _ h

theorem StdMap.mem_of_find {V : Type} (m : StdMap V) (k : Label) (v : V)
    (hf : StdMap.find m k = some v) : (k, v) ∈ m := by
  induction m with
  | nil => simp [StdMap.find] at hf
  | cons p t ih =>
    obtain ⟨k', v'⟩ := p
    by_cases hk : k' = k
    · simp only [StdMap.find, hk, if_true, Option.some.injEq] at hf
      rw [hk, hf]
      exact List.mem_cons_self _ _
    · simp only [StdMap.find, hk, if_false] at hf
      exact List.mem_cons_of_mem _ (ih hf)

theorem read_cases (m : StdMap ℚ) (k : Label) :
    StdMap.read m k 0 = 0 ∨ (k, StdMap.read m k 0) ∈ m := by
  unfold StdMap.read
  cases hf : StdMap.find m k with
  | none => left; rfl
  | some v => right; exact StdMap.mem_of_find m k v hf

theorem read_nonneg (m : StdMap ℚ) (hm : ∀ e ∈ m, 0 ≤ e.2) (k : Label) :
    0 ≤ StdMap.read m k 0 := by
  rcases read_cases m k with h | h
  · rw [h]
  · exact hm _ h

theorem read2_nonneg (t : StdMap (StdMap ℚ)) (ht : ∀ row ∈ t, ∀ e ∈ row.2, 0 ≤ e.2)
    (s d : Label) : 0 ≤ read2 t s d := by
  unfold read2
  apply read_nonneg
  unfold StdMap.read
  cases hf : StdMap.find t s with
  | none => intro e he; exact absurd he (List.not_mem_nil _)
  | some row => exact ht (s, row) (StdMap.mem_of_find t s row hf)

theorem sum_range_getD_nonneg (l : List ℚ) (hl : ∀ x ∈ l, 0 ≤ x) (N : ℕ) :
    0 ≤ ((List.range N).map (fun k => l.getD k 0)).sum := by
  apply List.sum_nonneg
  intro x hx
  obtain ⟨k, _, rfl⟩ := List.mem_map.1 hx
  exact getD_nonneg l hl k

theorem inflowTerm_nonneg (h : HierarchicalHMM) (obs : Observation)
    (hnn : NonNegativeInputs h obs) (dst : Label) (S : Label × SingleClassHMM)
    (hS : S ∈ h.models) : 0 ≤ inflowTerm h dst S := by
  obtain ⟨hc, hp, ht, _⟩ := hnn
  obtain ⟨_, h1, h2, _⟩ := hc S hS
  have e1 : 0 ≤ likelihoodAlpha_class 1 S.2 := by
    have : likelihoodAlpha_class 1 S.2
        = ((List.range S.2.states).map (fun k => S.2.alpha_h1.getD k 0)).sum := by
      simp [likelihoodAlpha_class, foldl_add_eq_sum, SingleClassHMM.alpha_h]
    rw [this]
    exact sum_range_getD_nonneg _ h1 _
  have e2 : 0 ≤ likelihoodAlpha_class 2 S.2 := by
    have : likelihoodAlpha_class 2 S.2
        = ((List.range S.2.states).map (fun k => S.2.alpha_h2.getD k 0)).sum := by
      simp [likelihoodAlpha_class, foldl_add_eq_sum, SingleClassHMM.alpha_h]
    rw [this]
    exact sum_range_getD_nonneg _ h2 _
  unfold inflowTerm
  exact add_nonneg (mul_nonneg e1 (read2_nonneg _ ht _ _)) (mul_nonneg (read_nonneg _ hp _) e2)

theorem crossClassInflow_nonneg (h : HierarchicalHMM) (obs : Observation)
    (hnn : NonNegativeInputs h obs) (dst : Label) :
    0 ≤ crossClassInflow (withFrontier h) dst := by
  rw [crossClassInflow_withFrontier]
  apply List.sum_nonneg
  intro x hx
  obtain ⟨S, hS, rfl⟩ := List.mem_map.1 hx
  exact inflowTerm_nonneg h obs hnn dst S hS

theorem front_nonneg (h : HierarchicalHMM) (obs : Observation)
    (hnn : NonNegativeInputs h obs) (q : Label × SingleClassHMM) (hq : q ∈ h.models)
    (k : ℕ) (hk : k < q.2.states) : 0 ≤ (front (withFrontier h) q.1 q.2).getD k 0 := by
  have hin := crossClassInflow_nonneg h obs hnn q.1
  obtain ⟨hc, _, _, _⟩ := hnn
  obtain ⟨h0, _, _, hT, hP, hE, _⟩ := hc q hq
  have hterm : ∀ i j l : ℕ, 0 ≤ q.2.transition.getD i 0
      / (1 - q.2.exit_probabilities_.getD j 0) * q.2.alpha_h0.getD l 0 := by
    intro i j l
    have hep : q.2.exit_probabilities_.getD j 0 < 1 := by
      rcases getD_cases q.2.exit_probabilities_ j with e | e
      · rw [e]; exact zero_lt_one
      · exact (hE _ e).2
    exact mul_nonneg (div_nonneg (getD_nonneg _ hT i) (by linarith)) (getD_nonneg _ h0 l)
  simp only [front, getD_map_range _ _ _ hk]
  cases hm : q.2.transition_mode with
  | Ergodic =>
    simp only [front_ergodic]
    rw [foldl_prior_frontierTerm, foldl_add_eq_sum, zero_add]
    apply add_nonneg
    · apply List.sum_nonneg
      intro x hx
      obtain ⟨j, _, rfl⟩ := List.mem_map.1 hx
      exact hterm _ _ _
    · exact mul_nonneg (getD_nonneg _ hP k) hin
  | LeftRight =>
    simp only [front_leftright]
    split
    · rw [foldl_frontierTerm]
      exact add_nonneg (mul_nonneg (getD_nonneg _ hT 0) (getD_nonneg _ h0 0)) hin
    · rw [zero_add]
      exact add_nonneg (hterm _ _ _) (hterm _ _ _)

theorem forward_update_class_nonneg (h : HierarchicalHMM) (obs : Observation)
    (hnn : NonNegativeInputs h obs) (q : Label × SingleClassHMM) (hq : q ∈ h.models) :
    (∀ x ∈ (forward_update_class (withFrontier h) obs q.1 q.2).alpha_h0, 0 ≤ x)
    ∧ (∀ x ∈ (forward_update_class (withFrontier h) obs q.1 q.2).alpha_h1, 0 ≤ x)
    ∧ (∀ x ∈ (forward_update_class (withFrontier h) obs q.1 q.2).alpha_h2, 0 ≤ x) := by
  have hfront := front_nonneg h obs hnn q hq
  obtain ⟨hc, _, _, het⟩ := hnn
  obtain ⟨_, _, _, _, _, hE, hem⟩ := hc q hq
  have htmp : ∀ k, k < q.2.states → 0 ≤ forward_update_tmp (withFrontier h) obs q.1 q.2 k := by
    intro k hk
    exact mul_nonneg (hem k hk) (hfront k hk)
  have hep : ∀ k, 0 ≤ q.2.exit_probabilities_.getD k 0
      ∧ q.2.exit_probabilities_.getD k 0 < 1 := by
    intro k
    rcases getD_cases q.2.exit_probabilities_ k with e | e
    · rw [e]; exact ⟨le_refl 0, zero_lt_one⟩
    · exact hE _ e
  have hex : 0 ≤ StdMap.read (withFrontier h).exit_transition q.1 0
      ∧ StdMap.read (withFrontier h).exit_transition q.1 0 ≤ 1 := by
    show 0 ≤ StdMap.read h.exit_transition q.1 0 ∧ StdMap.read h.exit_transition q.1 0 ≤ 1
    rcases read_cases h.exit_transition q.1 with e | e
    · rw [e]; exact ⟨le_refl 0, zero_le_one⟩
    · exact het _ e
  refine ⟨?_, ?_, ?_⟩
  · intro x hx
    simp only [forward_update_class] at hx
    obtain ⟨k, hk, rfl⟩ := List.mem_map.1 hx
    have hk' := List.mem_range.1 hk
    exact mul_nonneg (by linarith [(hep k).2]) (htmp k hk')
  · intro x hx
    simp only [forward_update_class] at hx
    obtain ⟨k, hk, rfl⟩ := List.mem_map.1 hx
    have hk' := List.mem_range.1 hk
    exact mul_nonneg (mul_nonneg (by linarith [hex.2]) (hep k).1) (htmp k hk')
  · intro x hx
    simp only [forward_update_class] at hx
    obtain ⟨k, hk, rfl⟩ := List.mem_map.1 hx
    have hk' := List.mem_range.1 hk
    exact mul_nonneg (mul_nonneg hex.1 (hep k).1) (htmp k hk')

theorem normalizeAlpha_nonneg (c : ℚ) (hc : 0 < c) (m : SingleClassHMM)
    (hl0 : m.alpha_h0.length = m.states) (hl1 : m.alpha_h1.length = m.states)
    (hl2 : m.alpha_h2.length = m.states)
    (h0 : ∀ x ∈ m.alpha_h0, 0 ≤ x) (h1 : ∀ x ∈ m.alpha_h1, 0 ≤ x)
    (h2 : ∀ x ∈ m.alpha_h2, 0 ≤ x) :
    (∀ x ∈ (normalizeAlpha c m).alpha_h0, 0 ≤ x)
    ∧ (∀ x ∈ (normalizeAlpha c m).alpha_h1, 0 ≤ x)
    ∧ (∀ x ∈ (normalizeAlpha c m).alpha_h2, 0 ≤ x) := by
  have key : ∀ v : List ℚ, v.length = m.states → (∀ x ∈ v, 0 ≤ x) →
      ∀ x ∈ divFirst m.states c v, 0 ≤ x := by
    intro v hv hnn x hx
    rw [divFirst_eq_map _ _ _ hv] at hx
    obtain ⟨y, hy, rfl⟩ := List.mem_map.1 hx
    exact div_nonneg (hnn y hy) hc.le
  exact ⟨key _ hl0 h0, key _ hl1 h1, key _ hl2 h2⟩

/-- C23. `forward_update` preserves non-negativity: when the training check
passes, the inputs are non-negative in the sense of `NonNegativeInputs` and the
normalization constant is positive, the call returns and every entry of the
three forward arrays of every class is non-negative and at most 1. -/
theorem forward_update_preserves_nonnegativity (ext : Collaborators) (h : HierarchicalHMM)
    (observation : Observation) (hcheck : ext.checkTraining h = .ok ())
    (hnn : NonNegativeInputs h observation)
    (hnorm : 0 < forward_update_norm_const h observation) :
    ∃ h', forward_update ext h observation = .ok h'
      ∧ ∀ p ∈ h'.models, ∀ x,
          (x ∈ p.2.alpha_h0 ∨ x ∈ p.2.alpha_h1 ∨ x ∈ p.2.alpha_h2) → 0 ≤ x ∧ x ≤ 1 := by
  refine ⟨_, by simp only [forward_update, hcheck]; rfl, ?_⟩
  have hall : ∀ p ∈ (withFrontier h).models.map (fun dstModel =>
      (dstModel.1, normalizeAlpha (forward_update_norm_const h observation)
        (forward_update_class (withFrontier h) observation dstModel.1 dstModel.2))),
      (∀ x ∈ p.2.alpha_h0, 0 ≤ x) ∧ (∀ x ∈ p.2.alpha_h1, 0 ≤ x)
        ∧ (∀ x ∈ p.2.alpha_h2, 0 ≤ x) := by
    intro p hp
    obtain ⟨q, hq, rfl⟩ := List.mem_map.1 hp
    have hraw := forward_update_class_nonneg h observation hnn q hq
    exact normalizeAlpha_nonneg _ hnorm _ (by simp [forward_update_class])
      (by simp [forward_update_class]) (by simp [forward_update_class])
      hraw.1 hraw.2.1 hraw.2.2
  have htotal : totalMass ((withFrontier h).models.map (fun dstModel =>
      (dstModel.1, normalizeAlpha (forward_update_norm_const h observation)
        (forward_update_class (withFrontier h) observation dstModel.1 dstModel.2)))) = 1 := by
    rw [totalMass_forward_update]
    exact div_self hnorm.ne'
  intro p hp x hx
  have hp' : p ∈ (withFrontier h).models.map (fun dstModel =>
      (dstModel.1, normalizeAlpha (forward_update_norm_const h observation)
        (forward_update_class (withFrontier h) observation dstModel.1 dstModel.2))) := hp
  obtain ⟨n0, n1, n2⟩ := hall p hp'
  have s0 : 0 ≤ p.2.alpha_h0.sum := List.sum_nonneg n0
  have s1 : 0 ≤ p.2.alpha_h1.sum := List.sum_nonneg n1
  have s2 : 0 ≤ p.2.alpha_h2.sum := List.sum_nonneg n2
  have hmass : p.2.mass ≤ 1 := by
    rw [← htotal]
    apply List.single_le_sum
    · intro y hy
      obtain ⟨r, hr, rfl⟩ := List.mem_map.1 hy
      obtain ⟨m0, m1, m2⟩ := hall r hr
      exact add_nonneg (add_nonneg (List.sum_nonneg m0) (List.sum_nonneg m1))
        (List.sum_nonneg m2)
    · exact List.mem_map.2 ⟨p, hp', rfl⟩
  have hm : p.2.mass = p.2.alpha_h0.sum + p.2.alpha_h1.sum + p.2.alpha_h2.sum := rfl
  rcases hx with hx | hx | hx
  · exact ⟨n0 x hx, by linarith [List.single_le_sum n0 x hx]⟩
  · exact ⟨n1 x hx, by linarith [List.single_le_sum n1 x hx]⟩
  · exact ⟨n2 x hx, by linarith [List.single_le_sum n2 x hx]⟩

/-- Witness of C23: `hierAB` has non-negative inputs and the positive
normalization constant 167/288. -/
theorem forward_update_preserves_nonnegativity_witness :
    NonNegativeInputs hierAB [] ∧ forward_update_norm_const hierAB [] = 167 / 288
    ∧ ∃ h', forward_update ext0 hierAB [] = .ok h'
      ∧ ∀ p ∈ h'.models, ∀ x,
          (x ∈ p.2.alpha_h0 ∨ x ∈ p.2.alpha_h1 ∨ x ∈ p.2.alpha_h2) → 0 ≤ x ∧ x ≤ 1 :=
  ⟨by decide!, by decide!,
   forward_update_preserves_nonnegativity ext0 hierAB [] rfl (by decide!) (by decide!)⟩

/-! ## Ring buffer: pushes and mean -/

end xmm
